import Mathlib

/-!
# Detection post-processing of `YoloDetector` (src/src/YoloDetector.cpp)

A shallow embedding of `YoloDetector::detect`: the letterbox parameters, the decoding of
the raw output rows, the confidence filter, the remapping of a box to original-image
pixels, and the suppression step, followed by theorems about them.

Conventions.
* `static_cast<int>` of a float is truncation toward zero (`toInt`); `int / int` is
  `Int.tdiv`.
* `float` is IEEE binary32 with round-to-nearest-even after every operation
  (`roundF32`; the exponent range is not bounded, so overflow and underflow are not
  modelled). The confidence product of line 104 is rounded in this way. The letterbox
  and the remapping are embedded twice: over exact rationals (`scale`, `newW`, `newH`,
  `padX`, `padY`, `remap`, `rowBox`), used by `detect` and by the statements whose
  conclusions do not depend on the rounding, and with every operation rounded
  (`scaleF32`, `newWF32`, `newHF32`, `padXF32`, `padYF32`, `remapF32`, `rowBoxF32`),
  used where the rounding decides.
* The forward pass of the network is not modelled: its result, the vector of output
  matrices, is the argument `outputs` of `detect`.
* `cv::minMaxLoc` and `cv::dnn::NMSBoxes` are OpenCV routines whose code is not part of
  the repository sources; they are modelled, the first from the
  specification and the second from the specification and from the library's score
  threshold (see their doc comments).
-/

namespace Yolo

/-! ## Data model -/

/-- The integer rectangle `cv::Rect` (x, y, width, height). -/
structure Rect where
  x : Int
  y : Int
  width : Int
  height : Int
deriving DecidableEq, Repr

/-- The record `YoloDetector::Detection` of include/YoloDetector.hpp. -/
structure Detection where
  classId : Int
  confidence : ℚ
  box : Rect
deriving DecidableEq

/-- The configuration fields of the class `YoloDetector` read by `detect` and
`drawDetections` (the network handle and the debug flag are left out). -/
structure YoloDetector where
  classNames : List String
  confThresh : ℚ
  nmsThresh : ℚ
  inpWidth : Int
  inpHeight : Int

/-- The dimensions of the input image `frame` (`frame.cols`, `frame.rows`). -/
structure Frame where
  cols : Int
  rows : Int

/-- One row `data[0 .. cols)` of an output matrix: `data[0..3]` are the box parameters,
`data[4]` is the objectness and `data + 5` starts the `cols - 5` class scores, of which
there is at least one. -/
structure Row where
  cx : ℚ
  cy : ℚ
  w : ℚ
  h : ℚ
  objConf : ℚ
  scores : List ℚ
  scores_ne : scores ≠ []

/-! ## Arithmetic helpers -/

/-- The cast `static_cast<int>(float)`: truncation toward zero. -/
def toInt (q : ℚ) : Int := if 0 ≤ q then ⌊q⌋ else ⌈q⌉

/-- The clamp `std::max(0.f, std::min(v, hi))` of lines 118-121. -/
def clamp (v hi : ℚ) : ℚ := max 0 (min v hi)

/-- Rounding of a rational to the nearest integer, ties to the even one. -/
def roundHalfEven (t : ℚ) : Int :=
  if t - (⌊t⌋ : ℚ) < 1 / 2 then ⌊t⌋
  else if 1 / 2 < t - (⌊t⌋ : ℚ) then ⌊t⌋ + 1
  else if ⌊t⌋ % 2 = 0 then ⌊t⌋ else ⌊t⌋ + 1

/-- The spacing of the binary32 values in the binade of a positive `x`: with
`2^e <= x < 2^(e+1)` it is `2^(e-23)` (24 significant bits). -/
def ulpF32 (x : ℚ) : ℚ := (2 : ℚ) ^ (Int.log 2 x - 23)

/-- Rounding of a non-negative rational to binary32: the significand `x / ulp` is
rounded to the nearest integer, ties to even. -/
def roundPosF32 (x : ℚ) : ℚ := (roundHalfEven (x / ulpF32 x) : ℚ) * ulpF32 x

/-- The result of a `float` operation whose exact value is `x`: rounding to the nearest
binary32 value, ties to even, symmetric in the sign. -/
def roundF32 (x : ℚ) : ℚ := if 0 ≤ x then roundPosF32 x else - roundPosF32 (-x)

/-- The non-negative binary32 values: a significand of at most 24 bits times a power
of two. -/
def IsNonnegF32 (x : ℚ) : Prop :=
  ∃ m j : Int, 0 ≤ m ∧ m ≤ 2 ^ 24 ∧ x = (m : ℚ) * (2 : ℚ) ^ j

/-! ## Letterbox parameters (lines 59-68) -/

/-- Line 62: `scale = min(float(inpWidth_) / origW, float(inpHeight_) / origH)`. -/
def scale (d : YoloDetector) (f : Frame) : ℚ :=
  min ((d.inpWidth : ℚ) / (f.cols : ℚ)) ((d.inpHeight : ℚ) / (f.rows : ℚ))

/-- Line 64: `newW = static_cast<int>(origW * scale)`. -/
def newW (d : YoloDetector) (f : Frame) : Int := toInt ((f.cols : ℚ) * scale d f)

/-- Line 65: `newH = static_cast<int>(origH * scale)`. -/
def newH (d : YoloDetector) (f : Frame) : Int := toInt ((f.rows : ℚ) * scale d f)

/-- Line 67: `padX = (inpWidth_ - newW) / 2`, integer division. -/
def padX (d : YoloDetector) (f : Frame) : Int := Int.tdiv (d.inpWidth - newW d f) 2

/-- Line 68: `padY = (inpHeight_ - newH) / 2`, integer division. -/
def padY (d : YoloDetector) (f : Frame) : Int := Int.tdiv (d.inpHeight - newH d f) 2

/-! ## Letterbox parameters in binary32 -/

/-- Line 62 with every operation rounded to binary32: both `int` operands are converted
to `float`, each quotient is rounded, and `std::min` picks one of the two. -/
def scaleF32 (d : YoloDetector) (f : Frame) : ℚ :=
  min (roundF32 (roundF32 (d.inpWidth : ℚ) / roundF32 (f.cols : ℚ)))
    (roundF32 (roundF32 (d.inpHeight : ℚ) / roundF32 (f.rows : ℚ)))

/-- Line 64 in binary32: the product `origW * scale` is rounded, then truncated. -/
def newWF32 (d : YoloDetector) (f : Frame) : Int :=
  toInt (roundF32 (roundF32 (f.cols : ℚ) * scaleF32 d f))

/-- Line 65 in binary32: the product `origH * scale` is rounded, then truncated. -/
def newHF32 (d : YoloDetector) (f : Frame) : Int :=
  toInt (roundF32 (roundF32 (f.rows : ℚ) * scaleF32 d f))

/-- Line 67 on the binary32 value of `newW`. -/
def padXF32 (d : YoloDetector) (f : Frame) : Int := Int.tdiv (d.inpWidth - newWF32 d f) 2

/-- Line 68 on the binary32 value of `newH`. -/
def padYF32 (d : YoloDetector) (f : Frame) : Int := Int.tdiv (d.inpHeight - newHF32 d f) 2

/-! ## Decoding of a row (lines 98-130) -/

/-- Modelled from the spec: the maximum found by `cv::minMaxLoc`, an OpenCV routine
absent from src/; §4.2 takes `max_class_score = max(class_scores)`. The branch for an
empty list is never taken, a row having at least one class score (`Row.scores_ne`). -/
def maxClassScore (r : Row) : ℚ :=
  match r.scores with
  | [] => 0
  | s :: ss => ss.foldl max s

/-- Modelled from the spec: the location found by `cv::minMaxLoc`, an OpenCV routine
absent from src/; §4.2 takes the index of the maximum, the lowest one on ties. -/
def classIdOf (r : Row) : Int := (r.scores.indexOf (maxClassScore r) : Nat)

/-- Line 104: `conf = objConf * static_cast<float>(maxClassScore)`, a `float` product. -/
def conf (r : Row) : ℚ := roundF32 (r.objConf * maxClassScore r)

/-- Lines 113-126: the box of a candidate given in network-input pixels, mapped back
to the original image, clamped and cast to integers. -/
def remap (scale : ℚ) (padX padY origW origH : Int) (cx cy w h : ℚ) : Rect :=
  let x0 := (cx - w / 2 - (padX : ℚ)) / scale
  let y0 := (cy - h / 2 - (padY : ℚ)) / scale
  let x1 := x0 + w / scale
  let y1 := y0 + h / scale
  let x0 := clamp x0 ((origW - 1 : Int) : ℚ)
  let y0 := clamp y0 ((origH - 1 : Int) : ℚ)
  let x1 := clamp x1 ((origW - 1 : Int) : ℚ)
  let y1 := clamp y1 ((origH - 1 : Int) : ℚ)
  { x := toInt x0, y := toInt y0, width := toInt (x1 - x0), height := toInt (y1 - y0) }

/-- Lines 108-126: the integer box computed for a row. -/
def rowBox (d : YoloDetector) (f : Frame) (r : Row) : Rect :=
  remap (scale d f) (padX d f) (padY d f) f.cols f.rows
    (r.cx * (d.inpWidth : ℚ)) (r.cy * (d.inpHeight : ℚ))
    (r.w * (d.inpWidth : ℚ)) (r.h * (d.inpHeight : ℚ))

/-- Lines 128-130: the triple pushed on `classIds`, `confidences`, `boxes` for a row. -/
def candidateOf (d : YoloDetector) (f : Frame) (r : Row) : Detection :=
  { classId := classIdOf r, confidence := conf r, box := rowBox d f r }

/-- Lines 96-135: the inner loop over the rows of one output matrix; a row with
`conf < confThresh_` is skipped (`continue`), any other row pushes its candidate. -/
def decodeRows (d : YoloDetector) (f : Frame) : List Row → List Detection
  | [] => []
  | r :: rs =>
    if conf r < d.confThresh then decodeRows d f rs
    else candidateOf d f r :: decodeRows d f rs

/-- Lines 93-136: the outer loop over the output matrices. The three parallel vectors
`classIds`, `confidences`, `boxes` are kept as one list of triples. -/
def candidates (d : YoloDetector) (f : Frame) : List (List Row) → List Detection
  | [] => []
  | output :: rest => decodeRows d f output ++ candidates d f rest

/-! ## Remapping in binary32 (lines 108-126) -/

/-- Lines 108-111 in binary32: `data[k] * inpWidth_` (or `inpHeight_`), the `int`
converted to `float` and the product rounded. -/
def netCoordF32 (v : ℚ) (n : Int) : ℚ := roundF32 (v * roundF32 (n : ℚ))

/-- Lines 113-114 in binary32: `(c - e / 2.0f - pad) / scale`, each operation rounded. -/
def lowCornerF32 (s : ℚ) (pad : Int) (c e : ℚ) : ℚ :=
  roundF32 (roundF32 (roundF32 (c - roundF32 (e / 2)) - roundF32 (pad : ℚ)) / s)

/-- Lines 115-116 in binary32: `x0 + e / scale` on the unclamped `x0`. -/
def highCornerF32 (s : ℚ) (pad : Int) (c e : ℚ) : ℚ :=
  roundF32 (lowCornerF32 s pad c e + roundF32 (e / s))

/-- Lines 118-121 in binary32: `std::max(0.f, std::min(v, static_cast<float>(hi)))`. -/
def clampF32 (v : ℚ) (hi : Int) : ℚ := max 0 (min v (roundF32 (hi : ℚ)))

/-- Lines 113-126 in binary32: as `remap`, every `float` operation rounded. -/
def remapF32 (scale : ℚ) (padX padY origW origH : Int) (cx cy w h : ℚ) : Rect :=
  let x0 := lowCornerF32 scale padX cx w
  let y0 := lowCornerF32 scale padY cy h
  let x1 := highCornerF32 scale padX cx w
  let y1 := highCornerF32 scale padY cy h
  let x0 := clampF32 x0 (origW - 1)
  let y0 := clampF32 y0 (origH - 1)
  let x1 := clampF32 x1 (origW - 1)
  let y1 := clampF32 y1 (origH - 1)
  { x := toInt x0, y := toInt y0, width := toInt (roundF32 (x1 - x0)),
    height := toInt (roundF32 (y1 - y0)) }

/-- Lines 108-126 in binary32: the integer box computed for a row. -/
def rowBoxF32 (d : YoloDetector) (f : Frame) (r : Row) : Rect :=
  remapF32 (scaleF32 d f) (padXF32 d f) (padYF32 d f) f.cols f.rows
    (netCoordF32 r.cx d.inpWidth) (netCoordF32 r.cy d.inpHeight)
    (netCoordF32 r.w d.inpWidth) (netCoordF32 r.h d.inpHeight)

/-- The value of `x0` after line 118, in binary32. -/
def x0F32 (d : YoloDetector) (f : Frame) (r : Row) : ℚ :=
  clampF32 (lowCornerF32 (scaleF32 d f) (padXF32 d f) (netCoordF32 r.cx d.inpWidth)
    (netCoordF32 r.w d.inpWidth)) (f.cols - 1)

/-- The value of `y0` after line 119, in binary32. -/
def y0F32 (d : YoloDetector) (f : Frame) (r : Row) : ℚ :=
  clampF32 (lowCornerF32 (scaleF32 d f) (padYF32 d f) (netCoordF32 r.cy d.inpHeight)
    (netCoordF32 r.h d.inpHeight)) (f.rows - 1)

/-- The value of `x1` after line 120, in binary32. -/
def x1F32 (d : YoloDetector) (f : Frame) (r : Row) : ℚ :=
  clampF32 (highCornerF32 (scaleF32 d f) (padXF32 d f) (netCoordF32 r.cx d.inpWidth)
    (netCoordF32 r.w d.inpWidth)) (f.cols - 1)

/-- The value of `y1` after line 121, in binary32. -/
def y1F32 (d : YoloDetector) (f : Frame) (r : Row) : ℚ :=
  clampF32 (highCornerF32 (scaleF32 d f) (padYF32 d f) (netCoordF32 r.cy d.inpHeight)
    (netCoordF32 r.h d.inpHeight)) (f.rows - 1)

/-! ## Suppression (line 139) -/

/-- Modelled from the spec: the area of a box, `area1` and `area2` of §4.4 item 4
(the overlap computation is OpenCV code, absent from src/). -/
def area (r : Rect) : ℚ := ((r.width * r.height : Int) : ℚ)

/-- Modelled from the spec: the intersection area of §4.4 item 4 (OpenCV code, absent
from src/), the area of the common rectangle and zero when the boxes do not overlap. -/
def interArea (a b : Rect) : ℚ :=
  let iw := min (a.x + a.width) (b.x + b.width) - max a.x b.x
  let ih := min (a.y + a.height) (b.y + b.height) - max a.y b.y
  ((max 0 iw * max 0 ih : Int) : ℚ)

/-- Modelled from the spec: the overlap measure of the suppression step, part of
OpenCV and absent from src/; §4.4 item 4: intersection area over
(area1 + area2 - intersection area), and 0 when the union area is 0. -/
def IoU (a b : Rect) : ℚ :=
  let uni := area a + area b - interArea a b
  if uni = 0 then 0 else interArea a b / uni

/-- The rectangle read for an index outside the list (never reached by `detect`). -/
def noRect : Rect := { x := 0, y := 0, width := 0, height := 0 }

/-- Modelled from the spec: one step of the loop of `cv::dnn::NMSBoxes` (OpenCV code,
absent from src/), §4.4 item 3: candidate `i` joins `kept` when its IoU with every kept
box is at most the threshold, and is discarded otherwise. -/
def nmsStep (boxes : List Rect) (t : ℚ) (kept : List Nat) (i : Nat) : List Nat :=
  if kept.all (fun k => decide (IoU (boxes.getD i noRect) (boxes.getD k noRect) ≤ t))
  then kept ++ [i] else kept

/-- Modelled from the spec: `cv::dnn::NMSBoxes`, an OpenCV routine absent from src/;
§4.4: the candidates are visited by descending confidence, ties in insertion order
(a stable insertion sort of the indices), and a candidate is kept when its IoU with
every box kept so far is at most `nms_threshold`. The argument `score_threshold`, which
the engine of §4.4 does not have, is the library's: only the candidates whose score is
above it (`score > score_threshold`) take part. -/
def NMSBoxes (boxes : List Rect) (scores : List ℚ) (score_threshold nms_threshold : ℚ) :
    List Nat :=
  let above := (List.range boxes.length).filter
    (fun i => decide (score_threshold < scores.getD i 0))
  let order := List.insertionSort (fun i j => scores.getD j 0 ≤ scores.getD i 0) above
  order.foldl (nmsStep boxes nms_threshold) []

/-! ## `detect` and the label lookup of `drawDetections` -/

/-- `YoloDetector::detect` (lines 53-156), with the output matrices of the forward pass
as the argument `outputs`. -/
def detect (d : YoloDetector) (f : Frame) (outputs : List (List Row)) : List Detection :=
  let cands := candidates d f outputs
  let classIds := cands.map (fun c => c.classId)
  let confidences := cands.map (fun c => c.confidence)
  let boxes := cands.map (fun c => c.box)
  let indices := NMSBoxes boxes confidences d.confThresh d.nmsThresh
  indices.map (fun idx =>
    { classId := classIds.getD idx 0, confidence := confidences.getD idx 0,
      box := boxes.getD idx noRect })

/-- Line 165: `classNames_.at(d.classId)`, which throws (here `none`) when the index
is not a position of the list. -/
def classNameAt (d : YoloDetector) (classId : Int) : Option String :=
  if 0 ≤ classId then d.classNames[classId.toNat]? else none


/-! ## The remapping as the specification words it (§4.3) -/

/-- Spec §4.3: `x0 = (cx - w/2 - pad_x) / scale`, clamped to `[0, orig_width - 1]`. -/
def specX0 (d : YoloDetector) (f : Frame) (r : Row) : ℚ :=
  clamp ((r.cx * (d.inpWidth : ℚ) - r.w * (d.inpWidth : ℚ) / 2 - (padX d f : ℚ)) / scale d f)
    ((f.cols - 1 : Int) : ℚ)

/-- Spec §4.3: `y0 = (cy - h/2 - pad_y) / scale`, clamped to `[0, orig_height - 1]`. -/
def specY0 (d : YoloDetector) (f : Frame) (r : Row) : ℚ :=
  clamp ((r.cy * (d.inpHeight : ℚ) - r.h * (d.inpHeight : ℚ) / 2 - (padY d f : ℚ)) / scale d f)
    ((f.rows - 1 : Int) : ℚ)

/-- Spec §4.3: `x1 = (cx + w/2 - pad_x) / scale`, clamped to `[0, orig_width - 1]`. -/
def specX1 (d : YoloDetector) (f : Frame) (r : Row) : ℚ :=
  clamp ((r.cx * (d.inpWidth : ℚ) + r.w * (d.inpWidth : ℚ) / 2 - (padX d f : ℚ)) / scale d f)
    ((f.cols - 1 : Int) : ℚ)

/-- Spec §4.3: `y1 = (cy + h/2 - pad_y) / scale`, clamped to `[0, orig_height - 1]`. -/
def specY1 (d : YoloDetector) (f : Frame) (r : Row) : ℚ :=
  clamp ((r.cy * (d.inpHeight : ℚ) + r.h * (d.inpHeight : ℚ) / 2 - (padY d f : ℚ)) / scale d f)
    ((f.rows - 1 : Int) : ℚ)

/-- Spec §4.3: the integer box `left = floor(x0), top = floor(y0),
width = floor(x1) - floor(x0), height = floor(y1) - floor(y0)`. -/
def specBox (d : YoloDetector) (f : Frame) (r : Row) : Rect :=
  { x := ⌊specX0 d f r⌋, y := ⌊specY0 d f r⌋,
    width := ⌊specX1 d f r⌋ - ⌊specX0 d f r⌋, height := ⌊specY1 d f r⌋ - ⌊specY0 d f r⌋ }

/-! ## Concrete inputs -/

/-- A detector with the default thresholds and network size of `ModelInfo` and one
class name. -/
def exampleDetector : YoloDetector :=
  { classNames := ["person"], confThresh := 1 / 4, nmsThresh := 2 / 5,
    inpWidth := 416, inpHeight := 416 }

/-- The same detector with the confidence threshold 0.26. -/
def strictDetector : YoloDetector :=
  { classNames := ["person"], confThresh := 26 / 100, nmsThresh := 2 / 5,
    inpWidth := 416, inpHeight := 416 }

/-- An 800 x 600 image. -/
def exampleFrame : Frame := { cols := 800, rows := 600 }

/-- A row at the canvas centre, 100 x 100 network pixels, confidence 1. -/
def centerRow : Row :=
  { cx := 1 / 2, cy := 1 / 2, w := 25 / 104, h := 25 / 104, objConf := 1, scores := [1],
    scores_ne := List.cons_ne_nil _ _ }

/-- A row with objectness 0.5 and a single class score 0.5. -/
def boundaryRow : Row :=
  { cx := 1 / 2, cy := 1 / 2, w := 25 / 104, h := 25 / 104, objConf := 1 / 2,
    scores := [1 / 2], scores_ne := List.cons_ne_nil _ _ }

/-- A detector whose network size is 10 x 10. -/
def smallDetector : YoloDetector :=
  { classNames := ["person"], confThresh := 1 / 4, nmsThresh := 2 / 5,
    inpWidth := 10, inpHeight := 10 }

/-- A 10 x 10 image: with `smallDetector` the scale is 1 and there is no padding. -/
def smallFrame : Frame := { cols := 10, rows := 10 }

/-- A row whose box spans 0.5 .. 1.2 on both axes of the 10 x 10 image. -/
def offGridRow : Row :=
  { cx := 17 / 200, cy := 17 / 200, w := 7 / 100, h := 7 / 100, objConf := 1, scores := [1],
    scores_ne := List.cons_ne_nil _ _ }

/-- A row with two class scores, the second one the larger. -/
def twoScoreRow : Row :=
  { cx := 1 / 2, cy := 1 / 2, w := 1 / 2, h := 1 / 2, objConf := 1, scores := [0, 1],
    scores_ne := List.cons_ne_nil _ _ }

/-- Two rows with the same box, 4 x 4 pixels of the 10 x 10 image. -/
def twinRows : List Row :=
  [{ cx := 1 / 2, cy := 1 / 2, w := 2 / 5, h := 2 / 5, objConf := 3 / 4, scores := [1],
     scores_ne := List.cons_ne_nil _ _ },
   { cx := 1 / 2, cy := 1 / 2, w := 2 / 5, h := 2 / 5, objConf := 1, scores := [1],
     scores_ne := List.cons_ne_nil _ _ }]

/-- A 352 x 288 image (CIF). -/
def cifFrame : Frame := { cols := 352, rows := 288 }

/-- A 100 x 100 image. -/
def squareFrame : Frame := { cols := 100, rows := 100 }

/-- A row whose box is 104 x 104 network pixels, 25 x 25 pixels of the 100 x 100 image. -/
def quarterRow : Row :=
  { cx := 13 / 32, cy := 13 / 32, w := 1 / 4, h := 1 / 4, objConf := 1, scores := [1],
    scores_ne := List.cons_ne_nil _ _ }

/-! ## Rounding to binary32 -/

theorem roundHalfEven_mem (t : ℚ) :
    roundHalfEven t = ⌊t⌋ ∨ roundHalfEven t = ⌊t⌋ + 1 := by
  unfold roundHalfEven
  split_ifs <;> simp

theorem floor_le_roundHalfEven (t : ℚ) : ⌊t⌋ ≤ roundHalfEven t := by
  rcases roundHalfEven_mem t with h | h <;> omega

theorem roundHalfEven_le_floor_add_one (t : ℚ) : roundHalfEven t ≤ ⌊t⌋ + 1 := by
  rcases roundHalfEven_mem t with h | h <;> omega

theorem abs_roundHalfEven_sub_le (t : ℚ) : |(roundHalfEven t : ℚ) - t| ≤ 1 / 2 := by
  have h1 := Int.floor_le t
  have h2 := Int.lt_floor_add_one t
  unfold roundHalfEven
  rw [abs_le]
  split_ifs <;> push_cast <;> constructor <;> linarith

theorem roundHalfEven_intCast (n : Int) : roundHalfEven (n : ℚ) = n := by
  simp [roundHalfEven]

theorem le_roundHalfEven {n : Int} {t : ℚ} (h : (n : ℚ) ≤ t) : n ≤ roundHalfEven t :=
  le_trans (Int.le_floor.mpr h) (floor_le_roundHalfEven t)

theorem roundHalfEven_le {n : Int} {t : ℚ} (h : t ≤ (n : ℚ)) : roundHalfEven t ≤ n := by
  rcases eq_or_lt_of_le h with h | h
  · rw [h, roundHalfEven_intCast]
  · have : ⌊t⌋ < n := Int.floor_lt.mpr h
    have := roundHalfEven_le_floor_add_one t
    omega

theorem roundHalfEven_mono {t u : ℚ} (h : t ≤ u) : roundHalfEven t ≤ roundHalfEven u := by
  rcases lt_or_eq_of_le (Int.floor_mono h) with hlt | heq
  · have := roundHalfEven_le_floor_add_one t
    have := floor_le_roundHalfEven u
    omega
  · unfold roundHalfEven
    rw [heq]
    split_ifs <;> first | omega | (exfalso; linarith)

theorem ulpF32_pos (x : ℚ) : 0 < ulpF32 x := zpow_pos (by norm_num) _

theorem log_eq_of_mem {x : ℚ} {e : Int} (h1 : (2 : ℚ) ^ e ≤ x) (h2 : x < (2 : ℚ) ^ (e + 1)) :
    Int.log 2 x = e := by
  have hx : 0 < x := lt_of_lt_of_le (zpow_pos (by norm_num) _) h1
  have a : e ≤ Int.log 2 x := (Int.zpow_le_iff_le_log (by norm_num) hx).mp (by exact_mod_cast h1)
  have b : Int.log 2 x < e + 1 := (Int.lt_zpow_iff_log_lt (by norm_num) hx).mp (by exact_mod_cast h2)
  omega

theorem zpow_log_le {x : ℚ} (hx : 0 < x) : (2 : ℚ) ^ Int.log 2 x ≤ x := by
  have := Int.zpow_log_le_self (b := 2) (by norm_num) hx
  exact_mod_cast this

theorem lt_zpow_log_succ (x : ℚ) : x < (2 : ℚ) ^ (Int.log 2 x + 1) := by
  have := Int.lt_zpow_succ_log_self (b := 2) (by norm_num) x
  exact_mod_cast this

theorem two_zpow_split (e : Int) : (2 : ℚ) ^ e = (2 : ℚ) ^ (23 : Int) * (2 : ℚ) ^ (e - 23) := by
  rw [← zpow_add₀ (by norm_num : (2 : ℚ) ≠ 0)]; congr 1; ring

theorem two_zpow_split_succ (e : Int) :
    (2 : ℚ) ^ (e + 1) = (2 : ℚ) ^ (24 : Int) * (2 : ℚ) ^ (e - 23) := by
  rw [← zpow_add₀ (by norm_num : (2 : ℚ) ≠ 0)]; congr 1; ring

/-- The significand of a positive value lies in `[2^23, 2^24)`. -/
theorem scaled_bounds {x : ℚ} (hx : 0 < x) :
    (2 : ℚ) ^ (23 : Int) ≤ x / ulpF32 x ∧ x / ulpF32 x < (2 : ℚ) ^ (24 : Int) := by
  have hu := ulpF32_pos x
  constructor
  · rw [le_div_iff₀ hu]
    have := zpow_log_le hx
    rw [two_zpow_split] at this
    exact this
  · rw [div_lt_iff₀ hu]
    have := lt_zpow_log_succ x
    rw [two_zpow_split_succ] at this
    exact this

theorem roundPosF32_eq_of {x : ℚ} {e n : Int} (h1 : (2 : ℚ) ^ e ≤ x) (h2 : x < (2 : ℚ) ^ (e + 1))
    (h3 : roundHalfEven (x / (2 : ℚ) ^ (e - 23)) = n) :
    roundPosF32 x = (n : ℚ) * (2 : ℚ) ^ (e - 23) := by
  unfold roundPosF32 ulpF32
  rw [log_eq_of_mem h1 h2, h3]

theorem roundF32_of_nonneg {x : ℚ} (hx : 0 ≤ x) : roundF32 x = roundPosF32 x := by
  simp [roundF32, hx]

theorem roundPosF32_zero : roundPosF32 0 = 0 := by
  simp [roundPosF32, roundHalfEven]

/-- Away from a tie, the rounded significand is the integer within one half. -/
theorem roundHalfEven_eq_of_abs_lt {t : ℚ} {n : Int} (h : |t - (n : ℚ)| < 1 / 2) :
    roundHalfEven t = n := by
  rw [abs_lt] at h
  have h1 := Int.floor_le t
  have h2 := Int.lt_floor_add_one t
  unfold roundHalfEven
  split_ifs with a b c
  · have : ((⌊t⌋ : Int) : ℚ) < ((n + 1 : Int) : ℚ) := by push_cast; linarith
    have e1 := Int.cast_lt.mp this
    have : ((n - 1 : Int) : ℚ) < ((⌊t⌋ : Int) : ℚ) := by push_cast; linarith
    have e2 := Int.cast_lt.mp this
    omega
  · have : ((⌊t⌋ + 1 : Int) : ℚ) < ((n + 1 : Int) : ℚ) := by push_cast; linarith
    have e1 := Int.cast_lt.mp this
    have : ((n - 1 : Int) : ℚ) < ((⌊t⌋ + 1 : Int) : ℚ) := by push_cast; linarith
    have e2 := Int.cast_lt.mp this
    omega
  · exfalso
    have e : t - (⌊t⌋ : ℚ) = 1 / 2 := le_antisymm (not_lt.mp b) (not_lt.mp a)
    have : ((n - 1 : Int) : ℚ) < ((⌊t⌋ : Int) : ℚ) := by push_cast; linarith
    have e2 := Int.cast_lt.mp this
    have : ((⌊t⌋ : Int) : ℚ) < ((n : Int) : ℚ) := by linarith
    have e1 := Int.cast_lt.mp this
    omega
  · exfalso
    have e : t - (⌊t⌋ : ℚ) = 1 / 2 := le_antisymm (not_lt.mp b) (not_lt.mp a)
    have : ((n - 1 : Int) : ℚ) < ((⌊t⌋ : Int) : ℚ) := by push_cast; linarith
    have e2 := Int.cast_lt.mp this
    have : ((⌊t⌋ : Int) : ℚ) < ((n : Int) : ℚ) := by linarith
    have e1 := Int.cast_lt.mp this
    omega

/-- Evaluation of the rounding at a positive value whose binade and nearest significand
are known. -/
theorem roundF32_eq_of {x : ℚ} (e n : Int) (h1 : (2 : ℚ) ^ e ≤ x) (h2 : x < (2 : ℚ) ^ (e + 1))
    (h3 : |x / (2 : ℚ) ^ (e - 23) - (n : ℚ)| < 1 / 2) :
    roundF32 x = (n : ℚ) * (2 : ℚ) ^ (e - 23) := by
  have hx : 0 < x := lt_of_lt_of_le (zpow_pos (by norm_num) _) h1
  rw [roundF32_of_nonneg hx.le]
  exact roundPosF32_eq_of h1 h2 (roundHalfEven_eq_of_abs_lt h3)

/-- The relative error of one rounding is at most `2^-24`. -/
theorem abs_roundPosF32_sub_le {x : ℚ} (hx : 0 < x) :
    |roundPosF32 x - x| ≤ x * (2 : ℚ) ^ (-24 : Int) := by
  have hu := ulpF32_pos x
  have h := abs_roundHalfEven_sub_le (x / ulpF32 x)
  have hs := (scaled_bounds hx).1
  have e1 : roundPosF32 x - x = ((roundHalfEven (x / ulpF32 x) : ℚ) - x / ulpF32 x) * ulpF32 x := by
    unfold roundPosF32; field_simp
  rw [e1, abs_mul, abs_of_pos hu]
  have h2 : ulpF32 x ≤ x * (2 : ℚ) ^ (-23 : Int) := by
    have := zpow_log_le hx
    unfold ulpF32
    rw [sub_eq_add_neg, zpow_add₀ (by norm_num : (2 : ℚ) ≠ 0)]
    exact mul_le_mul_of_nonneg_right this (zpow_pos (by norm_num) _).le
  calc |(roundHalfEven (x / ulpF32 x) : ℚ) - x / ulpF32 x| * ulpF32 x
      ≤ 1 / 2 * ulpF32 x := mul_le_mul_of_nonneg_right h hu.le
    _ ≤ 1 / 2 * (x * (2 : ℚ) ^ (-23 : Int)) := mul_le_mul_of_nonneg_left h2 (by norm_num)
    _ = x * (2 : ℚ) ^ (-24 : Int) := by norm_num; ring

theorem roundF32_rel {x : ℚ} (hx : 0 < x) :
    x * (1 - (2 : ℚ) ^ (-24 : Int)) ≤ roundF32 x ∧ roundF32 x ≤ x * (1 + (2 : ℚ) ^ (-24 : Int)) := by
  rw [roundF32_of_nonneg hx.le]
  have := abs_le.mp (abs_roundPosF32_sub_le hx)
  constructor <;> linarith [this.1, this.2]

theorem roundPosF32_nonneg {x : ℚ} (hx : 0 ≤ x) : 0 ≤ roundPosF32 x := by
  rcases eq_or_lt_of_le hx with h | h
  · rw [← h, roundPosF32_zero]
  · have := (roundF32_rel h).1
    rw [roundF32_of_nonneg hx] at this
    refine le_trans (mul_nonneg hx ?_) this
    norm_num

theorem roundF32_nonneg {x : ℚ} (hx : 0 ≤ x) : 0 ≤ roundF32 x := by
  rw [roundF32_of_nonneg hx]; exact roundPosF32_nonneg hx

theorem roundF32_pos {x : ℚ} (hx : 0 < x) : 0 < roundF32 x :=
  lt_of_lt_of_le (mul_pos hx (by norm_num)) (roundF32_rel hx).1

/-! ### Monotonicity and fixed points of the rounding -/

theorem roundPosF32_binade {x : ℚ} (hx : 0 < x) :
    (2 : ℚ) ^ Int.log 2 x ≤ roundPosF32 x ∧ roundPosF32 x ≤ (2 : ℚ) ^ (Int.log 2 x + 1) := by
  have hu := ulpF32_pos x
  obtain ⟨h1, h2⟩ := scaled_bounds hx
  have a : ((2 ^ 23 : Int) : ℚ) ≤ x / ulpF32 x := by push_cast; exact_mod_cast h1
  have b : x / ulpF32 x ≤ ((2 ^ 24 : Int) : ℚ) := by push_cast; exact_mod_cast h2.le
  have a' : ((2 ^ 23 : Int) : ℚ) ≤ (roundHalfEven (x / ulpF32 x) : ℚ) :=
    Int.cast_le.mpr (le_roundHalfEven a)
  have b' : (roundHalfEven (x / ulpF32 x) : ℚ) ≤ ((2 ^ 24 : Int) : ℚ) :=
    Int.cast_le.mpr (roundHalfEven_le b)
  constructor
  · rw [two_zpow_split]
    exact mul_le_mul_of_nonneg_right (by push_cast at a'; exact_mod_cast a') hu.le
  · rw [two_zpow_split_succ]
    exact mul_le_mul_of_nonneg_right (by push_cast at b'; exact_mod_cast b') hu.le

theorem roundPosF32_mono {x y : ℚ} (hx : 0 ≤ x) (hxy : x ≤ y) :
    roundPosF32 x ≤ roundPosF32 y := by
  rcases eq_or_lt_of_le hx with h0 | h0
  · rw [← h0, roundPosF32_zero]; exact roundPosF32_nonneg (hx.trans hxy)
  · have hy : 0 < y := lt_of_lt_of_le h0 hxy
    rcases lt_or_eq_of_le (Int.log_mono_right (b := 2) h0 hxy) with hl | hl
    · calc roundPosF32 x ≤ (2 : ℚ) ^ (Int.log 2 x + 1) := (roundPosF32_binade h0).2
        _ ≤ (2 : ℚ) ^ Int.log 2 y := zpow_le_zpow_right₀ (by norm_num) (by omega)
        _ ≤ roundPosF32 y := (roundPosF32_binade hy).1
    · have hu : ulpF32 x = ulpF32 y := by unfold ulpF32; rw [hl]
      unfold roundPosF32
      rw [hu]
      have hpos := ulpF32_pos y
      refine mul_le_mul_of_nonneg_right ?_ hpos.le
      exact Int.cast_le.mpr (roundHalfEven_mono (div_le_div_of_nonneg_right hxy hpos.le))

theorem roundF32_mono_of_nonneg {x y : ℚ} (hx : 0 ≤ x) (hxy : x ≤ y) :
    roundF32 x ≤ roundF32 y := by
  rw [roundF32_of_nonneg hx, roundF32_of_nonneg (hx.trans hxy)]
  exact roundPosF32_mono hx hxy

theorem roundPosF32_of_scaled_int {x : ℚ} (N : Int) (h : x / ulpF32 x = (N : ℚ)) :
    roundPosF32 x = x := by
  have hu := ulpF32_pos x
  unfold roundPosF32
  rw [h, roundHalfEven_intCast, ← h]
  field_simp

theorem roundPosF32_of_form_lt {m j : Int} (hm0 : 0 < m) (hm : m < 2 ^ 24) :
    roundPosF32 ((m : ℚ) * (2 : ℚ) ^ j) = (m : ℚ) * (2 : ℚ) ^ j := by
  have h2 : (2 : ℚ) ≠ 0 := by norm_num
  have hmq : (0 : ℚ) < (m : ℚ) := by exact_mod_cast hm0
  have hx : 0 < (m : ℚ) * (2 : ℚ) ^ j := mul_pos hmq (zpow_pos (by norm_num) _)
  have hlt : (m : ℚ) * (2 : ℚ) ^ j < (2 : ℚ) ^ (j + 24) := by
    rw [add_comm, zpow_add₀ h2]
    refine mul_lt_mul_of_pos_right ?_ (zpow_pos (by norm_num) _)
    have : ((m : Int) : ℚ) < ((2 ^ 24 : Int) : ℚ) := Int.cast_lt.mpr hm
    push_cast at this
    exact_mod_cast this
  have hlog : Int.log 2 ((m : ℚ) * (2 : ℚ) ^ j) < j + 24 :=
    (Int.lt_zpow_iff_log_lt (by norm_num) hx).mp (by exact_mod_cast hlt)
  obtain ⟨k, hk⟩ : ∃ k : ℕ, (k : Int) = j - (Int.log 2 ((m : ℚ) * (2 : ℚ) ^ j) - 23) :=
    ⟨(j - (Int.log 2 ((m : ℚ) * (2 : ℚ) ^ j) - 23)).toNat, Int.toNat_of_nonneg (by omega)⟩
  apply roundPosF32_of_scaled_int (m * 2 ^ k)
  unfold ulpF32
  rw [mul_div_assoc, ← zpow_sub₀ h2, ← hk, zpow_natCast]
  push_cast
  rfl

theorem roundPosF32_of_isNonnegF32 {x : ℚ} (h : IsNonnegF32 x) : roundPosF32 x = x := by
  obtain ⟨m, j, hm0, hm, rfl⟩ := h
  rcases eq_or_lt_of_le hm0 with h0 | h0
  · rw [← h0]; simp [roundPosF32_zero]
  · rcases eq_or_lt_of_le hm with h24 | h24
    · have e : ((m : Int) : ℚ) * (2 : ℚ) ^ j = ((2 ^ 23 : Int) : ℚ) * (2 : ℚ) ^ (j + 1) := by
        rw [h24, zpow_add₀ (by norm_num : (2 : ℚ) ≠ 0)]; push_cast; ring
      rw [e]
      exact roundPosF32_of_form_lt (by norm_num) (by norm_num)
    · exact roundPosF32_of_form_lt h0 h24

theorem isNonnegF32_nonneg {x : ℚ} (h : IsNonnegF32 x) : 0 ≤ x := by
  obtain ⟨m, j, hm0, _, rfl⟩ := h
  exact mul_nonneg (by exact_mod_cast hm0) (zpow_pos (by norm_num) _).le

theorem roundF32_of_isNonnegF32 {x : ℚ} (h : IsNonnegF32 x) : roundF32 x = x := by
  rw [roundF32_of_nonneg (isNonnegF32_nonneg h)]
  exact roundPosF32_of_isNonnegF32 h

theorem isNonnegF32_zero : IsNonnegF32 0 := ⟨0, 0, le_refl _, by norm_num, by simp⟩

theorem isNonnegF32_intCast {n : Int} (h0 : 0 ≤ n) (h : n ≤ 2 ^ 24) : IsNonnegF32 (n : ℚ) :=
  ⟨n, 0, h0, h, by simp⟩

theorem isNonnegF32_roundPosF32 {x : ℚ} (hx : 0 ≤ x) : IsNonnegF32 (roundPosF32 x) := by
  rcases eq_or_lt_of_le hx with h0 | h0
  · rw [← h0, roundPosF32_zero]; exact isNonnegF32_zero
  · obtain ⟨h1, h2⟩ := scaled_bounds h0
    have b : x / ulpF32 x ≤ ((2 ^ 24 : Int) : ℚ) := by push_cast; exact_mod_cast h2.le
    have a : ((0 : Int) : ℚ) ≤ x / ulpF32 x := by
      push_cast; exact (div_pos h0 (ulpF32_pos x)).le
    exact ⟨roundHalfEven (x / ulpF32 x), Int.log 2 x - 23, le_roundHalfEven a,
      roundHalfEven_le b, rfl⟩

theorem roundF32_neg_of_neg {x : ℚ} (hx : x < 0) : roundF32 x < 0 := by
  have h : roundF32 x = - roundPosF32 (-x) := by simp [roundF32, not_le.mpr hx]
  have := roundF32_pos (neg_pos.mpr hx)
  rw [roundF32_of_nonneg (neg_pos.mpr hx).le] at this
  rw [h]; linarith

theorem isNonnegF32_roundF32 {x : ℚ} (h : 0 ≤ roundF32 x) : IsNonnegF32 (roundF32 x) := by
  rcases le_or_lt 0 x with hx | hx
  · rw [roundF32_of_nonneg hx]; exact isNonnegF32_roundPosF32 hx
  · exact absurd (roundF32_neg_of_neg hx) (not_lt.mpr h)

/-- Rounding never crosses a binary32 value. -/
theorem roundF32_le_of_le {t c : ℚ} (hc : IsNonnegF32 c) (ht : 0 ≤ t) (h : t ≤ c) :
    roundF32 t ≤ c := by
  have := roundF32_mono_of_nonneg ht h
  rwa [roundF32_of_isNonnegF32 hc] at this

theorem le_roundF32_of_le {t a : ℚ} (ha : IsNonnegF32 a) (h : a ≤ t) : a ≤ roundF32 t := by
  have := roundF32_mono_of_nonneg (isNonnegF32_nonneg ha) h
  rwa [roundF32_of_isNonnegF32 ha] at this

/-- A binary32 value below `2^24` minus a smaller non-negative integer is a binary32 value. -/
theorem isNonnegF32_sub_int {b : ℚ} {n : Int} (hb : IsNonnegF32 b) (hlt : b < (2 : ℚ) ^ (24 : Int))
    (hn0 : 0 ≤ n) (hn : (n : ℚ) ≤ b) : IsNonnegF32 (b - (n : ℚ)) := by
  obtain ⟨m, j, hm0, hm, rfl⟩ := hb
  rcases le_or_lt 0 j with hj | hj
  · obtain ⟨k, hk⟩ : ∃ k : ℕ, (k : Int) = j := ⟨j.toNat, Int.toNat_of_nonneg hj⟩
    have e : (m : ℚ) * (2 : ℚ) ^ j = ((m * 2 ^ k : Int) : ℚ) := by
      rw [← hk, zpow_natCast]; push_cast; rfl
    rw [e] at hlt hn ⊢
    have h1 : n ≤ m * 2 ^ k := by exact_mod_cast hn
    have h2 : m * 2 ^ k < 2 ^ 24 := by
      have : ((m * 2 ^ k : Int) : ℚ) < ((2 ^ 24 : Int) : ℚ) := by push_cast; exact_mod_cast hlt
      exact Int.cast_lt.mp this
    have := isNonnegF32_intCast (n := m * 2 ^ k - n) (by omega) (by omega)
    simpa using this
  · obtain ⟨k, hk⟩ : ∃ k : ℕ, (k : Int) = -j := ⟨(-j).toNat, Int.toNat_of_nonneg (by omega)⟩
    have hj' : j = -(k : Int) := by omega
    have hpos : (0 : ℚ) < (2 : ℚ) ^ k := pow_pos (by norm_num) _
    have e2 : (2 : ℚ) ^ j = ((2 : ℚ) ^ k)⁻¹ := by rw [hj', zpow_neg, zpow_natCast]
    refine ⟨m - n * 2 ^ k, j, ?_, ?_, ?_⟩
    · have : ((n * 2 ^ k : Int) : ℚ) ≤ ((m : Int) : ℚ) := by
        push_cast
        rw [e2] at hn
        have := mul_le_mul_of_nonneg_right hn hpos.le
        rwa [mul_assoc, inv_mul_cancel₀ hpos.ne', mul_one] at this
      have := Int.cast_le.mp this
      omega
    · have : 0 ≤ n * 2 ^ k := mul_nonneg hn0 (pow_pos (by norm_num) _).le
      omega
    · rw [e2]; push_cast; field_simp; ring

/-! ## Auxiliary facts -/

theorem toInt_of_nonneg {q : ℚ} (hq : 0 ≤ q) : toInt q = ⌊q⌋ := by
  simp [toInt, hq]

theorem toInt_of_neg {q : ℚ} (hq : q < 0) : toInt q = ⌈q⌉ := by
  simp [toInt, not_le.mpr hq]

theorem toInt_intCast (n : Int) : toInt (n : ℚ) = n := by
  unfold toInt
  split <;> simp

theorem toInt_nonneg {q : ℚ} (hq : 0 ≤ q) : 0 ≤ toInt q := by
  rw [toInt_of_nonneg hq]
  exact Int.floor_nonneg.mpr hq

/-- Truncation never moves a value by a full unit. -/
theorem toInt_bounds (q : ℚ) : q - 1 < (toInt q : ℚ) ∧ (toInt q : ℚ) < q + 1 := by
  unfold toInt
  split
  · exact ⟨Int.sub_one_lt_floor q, lt_of_le_of_lt (Int.floor_le q) (by linarith)⟩
  · exact ⟨lt_of_lt_of_le (by linarith) (Int.le_ceil q), Int.ceil_lt_add_one q⟩

theorem toInt_eq_of_mem_Ico {q : ℚ} {n : Int} (h0 : 0 ≤ q) (h1 : (n : ℚ) ≤ q)
    (h2 : q < (n : ℚ) + 1) : toInt q = n := by
  rw [toInt_of_nonneg h0]
  exact Int.floor_eq_iff.mpr ⟨h1, h2⟩

theorem clamp_nonneg (v hi : ℚ) : 0 ≤ clamp v hi := le_max_left _ _

theorem clamp_le {v hi : ℚ} (hhi : 0 ≤ hi) : clamp v hi ≤ hi :=
  max_le hhi (min_le_right _ _)

theorem clamp_eq_self {v hi : ℚ} (h0 : 0 ≤ v) (h1 : v ≤ hi) : clamp v hi = v := by
  simp [clamp, h0, h1]

/-- Over exact rationals the resized image fills the canvas on the axis that attains the
minimum in `scale`; with binary32 rounding it can fall one pixel short. -/
theorem newW_eq_or_newH_eq (d : YoloDetector) (f : Frame) (hW : 1 ≤ f.cols) (hH : 1 ≤ f.rows) :
    newW d f = d.inpWidth ∨ newH d f = d.inpHeight := by
  have h1 : (f.cols : ℚ) ≠ 0 := by exact_mod_cast (by omega : f.cols ≠ 0)
  have h2 : (f.rows : ℚ) ≠ 0 := by exact_mod_cast (by omega : f.rows ≠ 0)
  rcases le_total ((d.inpWidth : ℚ) / (f.cols : ℚ)) ((d.inpHeight : ℚ) / (f.rows : ℚ)) with h | h
  · left
    have : (f.cols : ℚ) * scale d f = (d.inpWidth : ℚ) := by
      rw [scale, min_eq_left h]; field_simp
    rw [newW, this, toInt_intCast]
  · right
    have : (f.rows : ℚ) * scale d f = (d.inpHeight : ℚ) := by
      rw [scale, min_eq_right h]; field_simp
    rw [newH, this, toInt_intCast]

/-! ## Letterbox -/

theorem toInt_le_self_of_nonneg {q : ℚ} (hq : 0 ≤ q) : (toInt q : ℚ) ≤ q := by
  rw [toInt_of_nonneg hq]; exact Int.floor_le q

theorem toInt_nonpos_of_neg {q : ℚ} (hq : q < 0) : toInt q ≤ 0 := by
  rw [toInt_of_neg hq]
  exact Int.ceil_le.mpr (by simpa using hq.le)

theorem self_le_toInt_of_neg {q : ℚ} (hq : q < 0) : q ≤ (toInt q : ℚ) := by
  rw [toInt_of_neg hq]; exact Int.le_ceil q

/-- Two values clamped to `[0, M]`: the truncated first one and the truncated first one
plus the truncated difference both stay in `[0, M]`. -/
theorem trunc_pair_bounds (M : Int) (a b : ℚ) (ha0 : 0 ≤ a) (haM : a ≤ (M : ℚ))
    (hb0 : 0 ≤ b) (hbM : b ≤ (M : ℚ)) :
    0 ≤ toInt a ∧ toInt a ≤ M ∧ 0 ≤ toInt a + toInt (b - a) ∧ toInt a + toInt (b - a) ≤ M := by
  have h1 : 0 ≤ toInt a := toInt_nonneg ha0
  have h2 : (toInt a : ℚ) ≤ a := toInt_le_self_of_nonneg ha0
  have h3 : toInt a ≤ M := by exact_mod_cast h2.trans haM
  have h4 := (toInt_bounds a).1
  refine ⟨h1, h3, ?_, ?_⟩
  · rcases le_or_lt 0 (b - a) with hc | hc
    · have := toInt_nonneg hc
      omega
    · have h5 := self_le_toInt_of_neg hc
      have h6 : ((-1 : Int) : ℚ) < ((toInt a + toInt (b - a) : Int) : ℚ) := by
        push_cast; linarith
      have := Int.cast_lt.mp h6
      omega
  · rcases le_or_lt 0 (b - a) with hc | hc
    · have h5 := toInt_le_self_of_nonneg hc
      have h6 : ((toInt a + toInt (b - a) : Int) : ℚ) ≤ (M : ℚ) := by
        push_cast; linarith
      exact_mod_cast h6
    · have := toInt_nonpos_of_neg hc
      omega

/-- The box produced by the remapping lies in the image, whatever the candidate and the
transform. -/
theorem remap_inside (s : ℚ) (px py W H : Int) (cx cy w h : ℚ) (hW : 1 ≤ W) (hH : 1 ≤ H) :
    0 ≤ (remap s px py W H cx cy w h).x ∧ (remap s px py W H cx cy w h).x ≤ W - 1 ∧
    0 ≤ (remap s px py W H cx cy w h).y ∧ (remap s px py W H cx cy w h).y ≤ H - 1 ∧
    0 ≤ (remap s px py W H cx cy w h).x + (remap s px py W H cx cy w h).width ∧
    (remap s px py W H cx cy w h).x + (remap s px py W H cx cy w h).width ≤ W - 1 ∧
    0 ≤ (remap s px py W H cx cy w h).y + (remap s px py W H cx cy w h).height ∧
    (remap s px py W H cx cy w h).y + (remap s px py W H cx cy w h).height ≤ H - 1 := by
  have hW0 : (0 : ℚ) ≤ ((W - 1 : Int) : ℚ) := by exact_mod_cast (by omega : 0 ≤ W - 1)
  have hH0 : (0 : ℚ) ≤ ((H - 1 : Int) : ℚ) := by exact_mod_cast (by omega : 0 ≤ H - 1)
  obtain ⟨a1, a2, a3, a4⟩ := trunc_pair_bounds (W - 1)
    (clamp ((cx - w / 2 - (px : ℚ)) / s) ((W - 1 : Int) : ℚ))
    (clamp ((cx - w / 2 - (px : ℚ)) / s + w / s) ((W - 1 : Int) : ℚ))
    (clamp_nonneg _ _) (clamp_le hW0) (clamp_nonneg _ _) (clamp_le hW0)
  obtain ⟨b1, b2, b3, b4⟩ := trunc_pair_bounds (H - 1)
    (clamp ((cy - h / 2 - (py : ℚ)) / s) ((H - 1 : Int) : ℚ))
    (clamp ((cy - h / 2 - (py : ℚ)) / s + h / s) ((H - 1 : Int) : ℚ))
    (clamp_nonneg _ _) (clamp_le hH0) (clamp_nonneg _ _) (clamp_le hH0)
  exact ⟨a1, a2, b1, b2, a3, a4, b3, b4⟩

/-! ## Membership in the candidate list and in the result -/

theorem mem_decodeRows {d : YoloDetector} {f : Frame} {c : Detection} :
    ∀ {rows : List Row}, c ∈ decodeRows d f rows ↔
      ∃ r ∈ rows, ¬ conf r < d.confThresh ∧ c = candidateOf d f r
  | [] => by simp [decodeRows]
  | r :: rs => by
    have ih := @mem_decodeRows d f c rs
    by_cases hr : conf r < d.confThresh
    · simp only [decodeRows, hr, if_true, ih, List.mem_cons, exists_eq_or_imp, not_true,
        false_and, false_or]
    · simp only [decodeRows, hr, if_false, ih, List.mem_cons, exists_eq_or_imp, not_false_iff,
        true_and]

theorem mem_candidates {d : YoloDetector} {f : Frame} {c : Detection} :
    ∀ {outputs : List (List Row)}, c ∈ candidates d f outputs ↔
      ∃ output ∈ outputs, ∃ r ∈ output, ¬ conf r < d.confThresh ∧ c = candidateOf d f r
  | [] => by simp [candidates]
  | o :: os => by
    have ih := @mem_candidates d f c os
    simp only [candidates, List.mem_append, mem_decodeRows, ih, List.mem_cons,
      exists_eq_or_imp]

theorem foldl_nmsStep_mem (boxes : List Rect) (t : ℚ) :
    ∀ (order kept : List Nat) (i : Nat), i ∈ order.foldl (nmsStep boxes t) kept →
      i ∈ kept ∨ i ∈ order
  | [], kept, i, h => Or.inl (by simpa using h)
  | j :: js, kept, i, h => by
    rw [List.foldl_cons] at h
    rcases foldl_nmsStep_mem boxes t js _ i h with h1 | h1
    · unfold nmsStep at h1
      split at h1
      · rcases List.mem_append.mp h1 with h2 | h2
        · exact Or.inl h2
        · exact Or.inr (by simp at h2; simp [h2])
      · exact Or.inl h1
    · exact Or.inr (List.mem_cons_of_mem _ h1)

theorem NMSBoxes_lt_length (boxes : List Rect) (scores : List ℚ) (s t : ℚ) :
    ∀ i ∈ NMSBoxes boxes scores s t, i < boxes.length := by
  intro i hi
  unfold NMSBoxes at hi
  rcases foldl_nmsStep_mem boxes t _ [] i hi with h | h
  · simp at h
  · have := (List.perm_insertionSort _ _).mem_iff.mp h
    have := (List.mem_filter.mp this).1
    simpa using this

/-- Every detection returned by `detect` is an entry of the candidate list. -/
theorem mem_detect_mem_candidates {d : YoloDetector} {f : Frame} {outputs : List (List Row)}
    {c : Detection} (hc : c ∈ detect d f outputs) : c ∈ candidates d f outputs := by
  unfold detect at hc
  simp only [List.mem_map] at hc
  obtain ⟨idx, hidx, rfl⟩ := hc
  have hlt := NMSBoxes_lt_length _ _ _ _ idx hidx
  rw [List.length_map] at hlt
  have : (candidates d f outputs)[idx] ∈ candidates d f outputs := List.getElem_mem _
  convert this using 1
  simp [List.getD, List.getElem?_map, List.getElem?_eq_getElem hlt]

/-- C1: for an image of size W x H with W, H >= 1 and any network size, the box of every
row that passes the confidence filter (every entry of the candidate list, hence every
returned detection) has 0 <= left <= W-1, 0 <= top <= H-1, 0 <= left+width <= W-1 and
0 <= top+height <= H-1. -/
theorem box_inside_image (d : YoloDetector) (f : Frame) (outputs : List (List Row))
    (hW : 1 ≤ f.cols) (hH : 1 ≤ f.rows) :
    (∀ c ∈ candidates d f outputs,
      0 ≤ c.box.x ∧ c.box.x ≤ f.cols - 1 ∧ 0 ≤ c.box.y ∧ c.box.y ≤ f.rows - 1 ∧
      0 ≤ c.box.x + c.box.width ∧ c.box.x + c.box.width ≤ f.cols - 1 ∧
      0 ≤ c.box.y + c.box.height ∧ c.box.y + c.box.height ≤ f.rows - 1) ∧
    (∀ c ∈ detect d f outputs,
      0 ≤ c.box.x ∧ c.box.x ≤ f.cols - 1 ∧ 0 ≤ c.box.y ∧ c.box.y ≤ f.rows - 1 ∧
      0 ≤ c.box.x + c.box.width ∧ c.box.x + c.box.width ≤ f.cols - 1 ∧
      0 ≤ c.box.y + c.box.height ∧ c.box.y + c.box.height ≤ f.rows - 1) := by
  have key : ∀ c ∈ candidates d f outputs,
      0 ≤ c.box.x ∧ c.box.x ≤ f.cols - 1 ∧ 0 ≤ c.box.y ∧ c.box.y ≤ f.rows - 1 ∧
      0 ≤ c.box.x + c.box.width ∧ c.box.x + c.box.width ≤ f.cols - 1 ∧
      0 ≤ c.box.y + c.box.height ∧ c.box.y + c.box.height ≤ f.rows - 1 := by
    intro c hc
    obtain ⟨_, _, r, _, _, rfl⟩ := mem_candidates.mp hc
    exact remap_inside _ _ _ _ _ _ _ _ _ hW hH
  exact ⟨key, fun c hc => key c (mem_detect_mem_candidates hc)⟩

/-! ## Remapping of boxes that need no clamping -/

/-- When the remapped corners already lie in the image and are ordered, the box is the
floor of the first corner together with the floor of the extent. -/
theorem remap_of_inside (s : ℚ) (px py W H : Int) (cx cy w h : ℚ)
    (hx0 : 0 ≤ (cx - w / 2 - (px : ℚ)) / s) (hw : 0 ≤ w / s)
    (hx1 : (cx - w / 2 - (px : ℚ)) / s + w / s ≤ ((W - 1 : Int) : ℚ))
    (hy0 : 0 ≤ (cy - h / 2 - (py : ℚ)) / s) (hh : 0 ≤ h / s)
    (hy1 : (cy - h / 2 - (py : ℚ)) / s + h / s ≤ ((H - 1 : Int) : ℚ)) :
    remap s px py W H cx cy w h =
      { x := ⌊(cx - w / 2 - (px : ℚ)) / s⌋, y := ⌊(cy - h / 2 - (py : ℚ)) / s⌋,
        width := ⌊w / s⌋, height := ⌊h / s⌋ } := by
  unfold remap
  simp only
  rw [clamp_eq_self hx0 (by linarith), clamp_eq_self hy0 (by linarith),
    clamp_eq_self (by linarith) hx1, clamp_eq_self (by linarith) hy1,
    toInt_of_nonneg hx0, toInt_of_nonneg hy0, add_sub_cancel_left, add_sub_cancel_left,
    toInt_of_nonneg hw, toInt_of_nonneg hh]

theorem NMSBoxes_single_above {b : Rect} {c s : ℚ} (t : ℚ) (h : s < c) :
    NMSBoxes [b] [c] s t = [0] := by
  simp [NMSBoxes, List.range_succ, nmsStep, List.filter, h]

theorem NMSBoxes_single_not_above {b : Rect} {c s : ℚ} (t : ℚ) (h : c ≤ s) :
    NMSBoxes [b] [c] s t = [] := by
  simp [NMSBoxes, List.range_succ, List.filter, not_lt.mpr h]

theorem detect_of_candidates_nil {d : YoloDetector} {f : Frame} {outputs : List (List Row)}
    (h : candidates d f outputs = []) : detect d f outputs = [] := by
  simp [detect, h, NMSBoxes]

theorem detect_of_candidates_single {d : YoloDetector} {f : Frame}
    {outputs : List (List Row)} {c : Detection} (h : candidates d f outputs = [c])
    (habove : d.confThresh < c.confidence) : detect d f outputs = [c] := by
  simp [detect, h, NMSBoxes_single_above _ habove]

theorem detect_of_candidates_single_not_above {d : YoloDetector} {f : Frame}
    {outputs : List (List Row)} {c : Detection} (h : candidates d f outputs = [c])
    (hnot : c.confidence ≤ d.confThresh) : detect d f outputs = [] := by
  simp [detect, h, NMSBoxes_single_not_above _ hnot]

theorem candidates_single_keep {d : YoloDetector} {f : Frame} {r : Row}
    (h : d.confThresh ≤ conf r) : candidates d f [[r]] = [candidateOf d f r] := by
  simp [candidates, decodeRows, not_lt.mpr h]

theorem candidates_single_drop {d : YoloDetector} {f : Frame} {r : Row}
    (h : conf r < d.confThresh) : candidates d f [[r]] = [] := by
  simp [candidates, decodeRows, h]

/-- A lone row is returned when its confidence is above the threshold. -/
theorem detect_single_above {d : YoloDetector} {f : Frame} {r : Row}
    (h : d.confThresh < conf r) : detect d f [[r]] = [candidateOf d f r] :=
  detect_of_candidates_single (candidates_single_keep h.le) h

/-- A lone row is not returned when its confidence is not above the threshold. -/
theorem detect_single_not_above {d : YoloDetector} {f : Frame} {r : Row}
    (h : conf r ≤ d.confThresh) : detect d f [[r]] = [] := by
  rcases lt_or_eq_of_le h with hlt | heq
  · exact detect_of_candidates_nil (candidates_single_drop hlt)
  · exact detect_of_candidates_single_not_above (candidates_single_keep heq.symm.le) h

theorem conf_of_one (r : Row) (h1 : r.objConf = 1) (h2 : maxClassScore r = 1) : conf r = 1 := by
  rw [conf, h1, h2]
  rw [roundF32_eq_of 0 8388608 (by norm_num) (by norm_num) (by norm_num [abs_lt])]
  norm_num

/-! ## The 416 x 416 network on an 800 x 600 image -/

theorem scale_416_800x600 (d : YoloDetector) (hNw : d.inpWidth = 416)
    (hNh : d.inpHeight = 416) : scale d ⟨800, 600⟩ = 13 / 25 := by
  simp only [scale, hNw, hNh]
  norm_num

theorem pad_416_800x600 (d : YoloDetector) (hNw : d.inpWidth = 416)
    (hNh : d.inpHeight = 416) : padX d ⟨800, 600⟩ = 0 ∧ padY d ⟨800, 600⟩ = 52 := by
  have e1 : ((800 : Int) : ℚ) * (13 / 25) = ((416 : Int) : ℚ) := by norm_num
  have e2 : ((600 : Int) : ℚ) * (13 / 25) = ((312 : Int) : ℚ) := by norm_num
  have hw : newW d ⟨800, 600⟩ = 416 := by
    rw [newW, scale_416_800x600 d hNw hNh, e1, toInt_intCast]
  have hh : newH d ⟨800, 600⟩ = 312 := by
    rw [newH, scale_416_800x600 d hNw hNh, e2, toInt_intCast]
  rw [padX, padY, hw, hh, hNw, hNh]
  exact ⟨by decide, by decide⟩

theorem rowBox_416_800x600_center (d : YoloDetector) (r : Row) (hNw : d.inpWidth = 416)
    (hNh : d.inpHeight = 416) (hcx : r.cx * 416 = 208) (hcy : r.cy * 416 = 208)
    (hw : r.w * 416 = 100) (hh : r.h * 416 = 100) :
    rowBox d ⟨800, 600⟩ r = { x := 303, y := 203, width := 192, height := 192 } := by
  obtain ⟨hpx, hpy⟩ := pad_416_800x600 d hNw hNh
  have e416 : ((416 : Int) : ℚ) = 416 := by norm_num
  rw [rowBox, scale_416_800x600 d hNw hNh, hpx, hpy, hNw, hNh, e416, hcx, hcy, hw, hh]
  rw [remap_of_inside _ _ _ _ _ _ _ _ _ (by norm_num) (by norm_num) (by norm_num)
    (by norm_num) (by norm_num) (by norm_num)]
  have f1 : ⌊((208 : ℚ) - 100 / 2 - ((0 : Int) : ℚ)) / (13 / 25)⌋ = 303 :=
    Int.floor_eq_iff.mpr ⟨by norm_num, by norm_num⟩
  have f2 : ⌊((208 : ℚ) - 100 / 2 - ((52 : Int) : ℚ)) / (13 / 25)⌋ = 203 :=
    Int.floor_eq_iff.mpr ⟨by norm_num, by norm_num⟩
  have f3 : ⌊(100 : ℚ) / (13 / 25)⌋ = 192 :=
    Int.floor_eq_iff.mpr ⟨by norm_num, by norm_num⟩
  rw [f1, f2, f3]

/-- C4: end-to-end case. With a 416 x 416 network, an 800 x 600 image and a single raw
row whose candidate is centred at (208, 208) with w = h = 100 in network space and whose
confidence is above the threshold, `detect` returns one detection, with box
(303, 203, 192, 192), whose centre (left + width/2, top + height/2) is within 1 pixel of
(400, 300) on each axis. -/
theorem center_candidate_maps_to_image_center (d : YoloDetector) (r : Row)
    (hNw : d.inpWidth = 416) (hNh : d.inpHeight = 416)
    (hcx : r.cx * 416 = 208) (hcy : r.cy * 416 = 208)
    (hw : r.w * 416 = 100) (hh : r.h * 416 = 100) (hconf : d.confThresh < conf r) :
    ∃ det, detect d ⟨800, 600⟩ [[r]] = [det] ∧
      det.box = { x := 303, y := 203, width := 192, height := 192 } ∧
      |((det.box.x : ℚ) + (det.box.width : ℚ) / 2) - 400| ≤ 1 ∧
      |((det.box.y : ℚ) + (det.box.height : ℚ) / 2) - 300| ≤ 1 := by
  refine ⟨candidateOf d ⟨800, 600⟩ r,
    detect_single_above hconf, ?_, ?_, ?_⟩
  · exact rowBox_416_800x600_center d r hNw hNh hcx hcy hw hh
  · have : (candidateOf d ⟨800, 600⟩ r).box = { x := 303, y := 203, width := 192, height := 192 } :=
      rowBox_416_800x600_center d r hNw hNh hcx hcy hw hh
    rw [this]; norm_num [abs_le]
  · have : (candidateOf d ⟨800, 600⟩ r).box = { x := 303, y := 203, width := 192, height := 192 } :=
      rowBox_416_800x600_center d r hNw hNh hcx hcy hw hh
    rw [this]; norm_num [abs_le]

/-! ## The integer box in terms of the clamped corners -/

/-- The corner `x1 = x0 + w / scale` of line 115 is the corner `(cx + w/2 - padX) / scale`. -/
theorem corner_add_extent (c w p s : ℚ) : (c - w / 2 - p) / s + w / s = (c + w / 2 - p) / s := by
  rw [← add_div]; congr 1; ring

theorem rowBox_eq (d : YoloDetector) (f : Frame) (r : Row) :
    rowBox d f r =
      { x := toInt (specX0 d f r), y := toInt (specY0 d f r),
        width := toInt (specX1 d f r - specX0 d f r),
        height := toInt (specY1 d f r - specY0 d f r) } := by
  simp only [rowBox, remap, specX0, specY0, specX1, specY1, corner_add_extent]

theorem scale_small : scale smallDetector smallFrame = 1 := by
  norm_num [scale, smallDetector, smallFrame]

theorem pad_small : padX smallDetector smallFrame = 0 ∧ padY smallDetector smallFrame = 0 := by
  have e1 : ((10 : Int) : ℚ) * 1 = ((10 : Int) : ℚ) := by norm_num
  have hw : newW smallDetector smallFrame = 10 := by
    rw [newW, scale_small]
    show toInt (((10 : Int) : ℚ) * 1) = 10
    rw [e1, toInt_intCast]
  have hh : newH smallDetector smallFrame = 10 := by
    rw [newH, scale_small]
    show toInt (((10 : Int) : ℚ) * 1) = 10
    rw [e1, toInt_intCast]
  rw [padX, padY, hw, hh]
  exact ⟨by decide, by decide⟩

theorem spec_corners_offGrid :
    specX0 smallDetector smallFrame offGridRow = 1 / 2 ∧
    specX1 smallDetector smallFrame offGridRow = 6 / 5 ∧
    specY0 smallDetector smallFrame offGridRow = 1 / 2 ∧
    specY1 smallDetector smallFrame offGridRow = 6 / 5 := by
  simp only [specX0, specX1, specY0, specY1, scale_small, pad_small.1, pad_small.2]
  norm_num [clamp, smallDetector, smallFrame, offGridRow]

theorem rowBox_offGrid :
    rowBox smallDetector smallFrame offGridRow = { x := 0, y := 0, width := 0, height := 0 } := by
  obtain ⟨h1, h2, h3, h4⟩ := spec_corners_offGrid
  rw [rowBox_eq, h1, h2, h3, h4]
  have a : toInt (1 / 2) = 0 :=
    toInt_eq_of_mem_Ico (by norm_num) (by norm_num) (by norm_num)
  have b : toInt ((6 : ℚ) / 5 - 1 / 2) = 0 :=
    toInt_eq_of_mem_Ico (by norm_num) (by norm_num) (by norm_num)
  rw [a, b]

theorem specBox_offGrid :
    specBox smallDetector smallFrame offGridRow = { x := 0, y := 0, width := 1, height := 1 } := by
  obtain ⟨h1, h2, h3, h4⟩ := spec_corners_offGrid
  have a : ⌊(1 : ℚ) / 2⌋ = 0 := Int.floor_eq_iff.mpr ⟨by norm_num, by norm_num⟩
  have b : ⌊(6 : ℚ) / 5⌋ = 1 := Int.floor_eq_iff.mpr ⟨by norm_num, by norm_num⟩
  rw [specBox, h1, h2, h3, h4, a, b]
  rfl

theorem conf_offGrid : conf offGridRow = 1 := conf_of_one offGridRow rfl rfl

theorem detect_offGrid :
    detect smallDetector smallFrame [[offGridRow]]
      = [candidateOf smallDetector smallFrame offGridRow] :=
  detect_single_above (by rw [conf_offGrid]; norm_num [smallDetector])

/-- Counterexample to C6: the row spanning 0.5 .. 1.2 passes the filter and is returned
with width 0, while floor(x1) - floor(x0) = 1 - 0 = 1. -/
theorem rowBox_width_ne_floor_difference :
    candidateOf smallDetector smallFrame offGridRow
        ∈ detect smallDetector smallFrame [[offGridRow]] ∧
      (rowBox smallDetector smallFrame offGridRow).width = 0 ∧
      ⌊specX1 smallDetector smallFrame offGridRow⌋
        - ⌊specX0 smallDetector smallFrame offGridRow⌋ = 1 ∧
      rowBox smallDetector smallFrame offGridRow
        ≠ specBox smallDetector smallFrame offGridRow := by
  have hs := specBox_offGrid
  refine ⟨by rw [detect_offGrid]; exact List.mem_singleton.mpr rfl, by rw [rowBox_offGrid], ?_, ?_⟩
  · have := congrArg Rect.width hs
    simpa [specBox] using this
  · rw [rowBox_offGrid, hs]; decide

/-! ## Degenerate boxes -/

theorem interArea_comm (a b : Rect) : interArea a b = interArea b a := by
  simp only [interArea, min_comm (a.x + a.width), max_comm a.x, min_comm (a.y + a.height),
    max_comm a.y]

theorem IoU_comm (a b : Rect) : IoU a b = IoU b a := by
  simp only [IoU, interArea_comm a b, add_comm (area a)]

/-- Invariant of the greedy pass: each kept index has IoU at most the threshold with
every index kept before it. -/
theorem foldl_nmsStep_pairwise (boxes : List Rect) (t : ℚ) :
    ∀ (order kept : List Nat),
      kept.Pairwise (fun k i => IoU (boxes.getD i noRect) (boxes.getD k noRect) ≤ t) →
      (order.foldl (nmsStep boxes t) kept).Pairwise
        (fun k i => IoU (boxes.getD i noRect) (boxes.getD k noRect) ≤ t)
  | [], kept, h => by simpa using h
  | j :: js, kept, h => by
    rw [List.foldl_cons]
    apply foldl_nmsStep_pairwise boxes t js
    unfold nmsStep
    split
    · rename_i hall
      rw [List.all_eq_true] at hall
      rw [List.pairwise_append]
      refine ⟨h, List.pairwise_singleton _ _, ?_⟩
      intro k hk i hi
      rw [List.mem_singleton] at hi
      subst hi
      exact of_decide_eq_true (hall k hk)
    · exact h

theorem NMSBoxes_pairwise (boxes : List Rect) (scores : List ℚ) (s t : ℚ) :
    (NMSBoxes boxes scores s t).Pairwise
      (fun k i => IoU (boxes.getD i noRect) (boxes.getD k noRect) ≤ t) :=
  foldl_nmsStep_pairwise boxes t _ [] List.Pairwise.nil

/-- C8: class-agnostic suppression. Any two detections at different positions of the
result of `detect` have IoU at most nmsThresh (in either order, whatever their class ids),
where IoU is the intersection area over (area1 + area2 - intersection area) and 0 for a
zero union; and every returned detection is the candidate of a row that passed the
confidence filter, with that row's class id, confidence and box. -/
theorem nms_result_pairwise_and_sound (d : YoloDetector) (f : Frame)
    (outputs : List (List Row)) :
    (detect d f outputs).Pairwise
      (fun a b => IoU a.box b.box ≤ d.nmsThresh ∧ IoU b.box a.box ≤ d.nmsThresh) ∧
    (∀ c ∈ detect d f outputs, ∃ output ∈ outputs, ∃ r ∈ output,
      d.confThresh ≤ conf r ∧ c.classId = classIdOf r ∧ c.confidence = conf r ∧
        c.box = rowBox d f r) := by
  refine ⟨?_, ?_⟩
  · unfold detect
    simp only
    rw [List.pairwise_map]
    refine List.Pairwise.imp ?_ (NMSBoxes_pairwise _ _ _ _)
    intro k i h
    exact ⟨by rw [IoU_comm]; exact h, h⟩
  · intro c hc
    obtain ⟨output, ho, r, hr, hconf, rfl⟩ := mem_candidates.mp (mem_detect_mem_candidates hc)
    exact ⟨output, ho, r, hr, not_lt.mp hconf, rfl, rfl, rfl⟩

/-! ## Class ids -/

theorem foldl_max_mem (s : ℚ) : ∀ (ss : List ℚ) (a : ℚ), a = s ∨ a ∈ ss →
    ss.foldl max a = s ∨ ss.foldl max a ∈ ss
  | [], a, h => by simpa using h
  | x :: xs, a, h => by
    rw [List.foldl_cons]
    have hm : max a x = s ∨ max a x = x ∨ max a x ∈ xs := by
      rcases max_choice a x with e | e
      · rw [e]
        rcases h with h | h
        · exact Or.inl h
        · rcases List.mem_cons.mp h with h | h
          · exact Or.inr (Or.inl h)
          · exact Or.inr (Or.inr h)
      · exact Or.inr (Or.inl e)
    rcases hm with e | e | e
    · rcases foldl_max_mem s xs (max a x) (Or.inl e) with r | r
      · exact Or.inl r
      · exact Or.inr (List.mem_cons_of_mem _ r)
    · have := foldl_max_mem x xs (max a x) (Or.inl e)
      exact Or.inr (List.mem_cons.mpr this)
    · have := foldl_max_mem s xs (max a x) (Or.inr e)
      rcases this with r | r
      · exact Or.inl r
      · exact Or.inr (List.mem_cons_of_mem _ r)

theorem maxClassScore_mem (r : Row) : maxClassScore r ∈ r.scores := by
  have hne := r.scores_ne
  unfold maxClassScore
  cases hs : r.scores with
  | nil => exact absurd hs hne
  | cons s ss =>
    simp only
    exact List.mem_cons.mpr (foldl_max_mem s ss s (Or.inl rfl))

theorem classIdOf_lt (r : Row) : 0 ≤ classIdOf r ∧ classIdOf r < (r.scores.length : Int) := by
  unfold classIdOf
  exact ⟨Int.natCast_nonneg _, by exact_mod_cast List.indexOf_lt_length.mpr (maxClassScore_mem r)⟩

theorem classIdOf_twoScoreRow : classIdOf twoScoreRow = 1 := by
  have : maxClassScore twoScoreRow = 1 := by norm_num [maxClassScore, twoScoreRow]
  rw [classIdOf, this]
  norm_num [twoScoreRow, List.indexOf_cons]

theorem detect_twoScoreRow :
    detect exampleDetector exampleFrame [[twoScoreRow]]
      = [candidateOf exampleDetector exampleFrame twoScoreRow] :=
  detect_single_above (by
    rw [conf_of_one twoScoreRow rfl (by norm_num [maxClassScore, twoScoreRow])]
    norm_num [exampleDetector])

/-- Counterexample to C9: with one class name loaded, a row with two class scores whose
second score is the maximum is returned with classId 1, which is not a position of the
class-name list, and the lookup made by `drawDetections` fails. -/
theorem classId_outside_classNames :
    ∃ c ∈ detect exampleDetector exampleFrame [[twoScoreRow]],
      ¬ (c.classId < (exampleDetector.classNames.length : Int)) ∧
        classNameAt exampleDetector c.classId = none := by
  refine ⟨candidateOf exampleDetector exampleFrame twoScoreRow, ?_, ?_, ?_⟩
  · rw [detect_twoScoreRow]; exact List.mem_singleton.mpr rfl
  · show ¬ (classIdOf twoScoreRow < _)
    rw [classIdOf_twoScoreRow]; decide
  · show classNameAt exampleDetector (classIdOf twoScoreRow) = none
    rw [classIdOf_twoScoreRow]; rfl

/-- C9 (as the code has it): each detection returned by `detect` is decoded from a row r
with 0 <= classId < number of class scores of r; the class-name list is not consulted.
When no row has more class scores than there are class names, every returned classId is
a valid position of the class-name list and the lookup of `drawDetections` succeeds. -/
theorem classId_within_row_scores (d : YoloDetector) (f : Frame) (outputs : List (List Row)) :
    (∀ c ∈ detect d f outputs, ∃ output ∈ outputs, ∃ r ∈ output,
      c.classId = classIdOf r ∧ 0 ≤ c.classId ∧ c.classId < (r.scores.length : Int)) ∧
    ((∀ output ∈ outputs, ∀ r ∈ output, r.scores.length ≤ d.classNames.length) →
      ∀ c ∈ detect d f outputs, 0 ≤ c.classId ∧ c.classId < (d.classNames.length : Int) ∧
        (classNameAt d c.classId).isSome) := by
  have key : ∀ c ∈ detect d f outputs, ∃ output ∈ outputs, ∃ r ∈ output,
      c.classId = classIdOf r ∧ 0 ≤ c.classId ∧ c.classId < (r.scores.length : Int) := by
    intro c hc
    obtain ⟨output, ho, r, hr, _, rfl⟩ := mem_candidates.mp (mem_detect_mem_candidates hc)
    exact ⟨output, ho, r, hr, rfl, classIdOf_lt r⟩
  refine ⟨key, ?_⟩
  intro hlen c hc
  obtain ⟨output, ho, r, hr, _, h0, h1⟩ := key c hc
  have hle : (r.scores.length : Int) ≤ (d.classNames.length : Int) := by
    exact_mod_cast hlen output ho r hr
  have hlt : c.classId < (d.classNames.length : Int) := lt_of_lt_of_le h1 hle
  refine ⟨h0, hlt, ?_⟩
  unfold classNameAt
  rw [if_pos h0]
  have : c.classId.toNat < d.classNames.length := by omega
  simp [List.getElem?_eq_getElem this]

/-! ## Suppression on two rows with the same box -/

theorem candidates_twinRows :
    candidates smallDetector smallFrame [twinRows]
      = [{ classId := 0, confidence := 3 / 4,
           box := { x := 3, y := 3, width := 4, height := 4 } },
         { classId := 0, confidence := 1,
           box := { x := 3, y := 3, width := 4, height := 4 } }] := by
  have e10 : ((10 : Int) : ℚ) = 10 := by norm_num
  have hbox : ∀ r : Row, r.cx = 1 / 2 → r.cy = 1 / 2 → r.w = 2 / 5 → r.h = 2 / 5 →
      rowBox smallDetector smallFrame r = { x := 3, y := 3, width := 4, height := 4 } := by
    intro r h1 h2 h3 h4
    rw [rowBox, scale_small, pad_small.1, pad_small.2, h1, h2, h3, h4]
    show remap 1 0 0 10 10 (1 / 2 * ((10 : Int) : ℚ)) (1 / 2 * ((10 : Int) : ℚ))
      (2 / 5 * ((10 : Int) : ℚ)) (2 / 5 * ((10 : Int) : ℚ)) = _
    rw [e10, remap_of_inside _ _ _ _ _ _ _ _ _ (by norm_num) (by norm_num) (by norm_num)
      (by norm_num) (by norm_num) (by norm_num)]
    have f1 : ⌊((1 : ℚ) / 2 * 10 - 2 / 5 * 10 / 2 - ((0 : Int) : ℚ)) / 1⌋ = 3 :=
      Int.floor_eq_iff.mpr ⟨by norm_num, by norm_num⟩
    have f2 : ⌊(2 : ℚ) / 5 * 10 / 1⌋ = 4 :=
      Int.floor_eq_iff.mpr ⟨by norm_num, by norm_num⟩
    rw [f1, f2]
  have r34 : roundF32 (3 / 4) = 3 / 4 := by
    rw [roundF32_eq_of (-1) 12582912 (by norm_num) (by norm_num) (by norm_num [abs_lt])]
    norm_num
  have c1 : ∀ r : Row, r.objConf = 3 / 4 → r.scores = [1] → conf r = 3 / 4 := by
    intro r h1 h2
    have : maxClassScore r = 1 := by simp [maxClassScore, h2]
    rw [conf, h1, this, mul_one, r34]
  have c2 : ∀ r : Row, r.objConf = 1 → r.scores = [1] → conf r = 1 := by
    intro r h1 h2
    exact conf_of_one r h1 (by simp [maxClassScore, h2])
  have i0 : ∀ r : Row, r.scores = [1] → classIdOf r = 0 := by
    intro r h2
    have : maxClassScore r = 1 := by simp [maxClassScore, h2]
    simp [classIdOf, this, h2]
  simp only [candidates, twinRows, decodeRows, List.append_nil]
  rw [if_neg (by rw [c1 _ rfl rfl]; norm_num [smallDetector]),
    if_neg (by rw [c2 _ rfl rfl]; norm_num [smallDetector])]
  simp only [candidateOf]
  rw [hbox _ rfl rfl rfl rfl, hbox _ rfl rfl rfl rfl, c1 _ rfl rfl, c2 _ rfl rfl,
    i0 _ rfl, i0 _ rfl]

/-- Of two rows with the same 4 x 4 box (IoU 1 > 0.4), only the one with the higher
confidence is returned, although it comes second in the output matrix. -/
theorem detect_twinRows :
    detect smallDetector smallFrame [twinRows]
      = [{ classId := 0, confidence := 1,
           box := { x := 3, y := 3, width := 4, height := 4 } }] := by
  have hI : IoU { x := 3, y := 3, width := 4, height := 4 }
      { x := 3, y := 3, width := 4, height := 4 } = 1 := by
    norm_num [IoU, area, interArea]
  simp only [detect, candidates_twinRows, NMSBoxes, List.map, List.length, List.range_succ,
    List.range_zero, List.nil_append, List.singleton_append, List.insertionSort,
    List.orderedInsert, List.foldr, List.getD_cons_zero, List.getD_cons_succ]
  norm_num [nmsStep, hI, smallDetector]

/-! ## Witnesses on concrete inputs -/

theorem detect_centerRow :
    detect exampleDetector exampleFrame [[centerRow]]
      = [candidateOf exampleDetector exampleFrame centerRow] :=
  detect_single_above (by rw [conf_of_one centerRow rfl rfl]; norm_num [exampleDetector])

theorem box_inside_image_witness :
    (1 ≤ exampleFrame.cols ∧ 1 ≤ exampleFrame.rows) ∧
      0 ≤ (rowBox exampleDetector exampleFrame centerRow).x ∧
      (rowBox exampleDetector exampleFrame centerRow).x ≤ exampleFrame.cols - 1 ∧
      0 ≤ (rowBox exampleDetector exampleFrame centerRow).y ∧
      (rowBox exampleDetector exampleFrame centerRow).y ≤ exampleFrame.rows - 1 ∧
      0 ≤ (rowBox exampleDetector exampleFrame centerRow).x
        + (rowBox exampleDetector exampleFrame centerRow).width ∧
      (rowBox exampleDetector exampleFrame centerRow).x
        + (rowBox exampleDetector exampleFrame centerRow).width ≤ exampleFrame.cols - 1 ∧
      0 ≤ (rowBox exampleDetector exampleFrame centerRow).y
        + (rowBox exampleDetector exampleFrame centerRow).height ∧
      (rowBox exampleDetector exampleFrame centerRow).y
        + (rowBox exampleDetector exampleFrame centerRow).height ≤ exampleFrame.rows - 1 :=
  ⟨⟨by decide, by decide⟩,
    (box_inside_image exampleDetector exampleFrame [[centerRow]] (by decide) (by decide)).2
      (candidateOf exampleDetector exampleFrame centerRow)
      (by rw [detect_centerRow]; exact List.mem_singleton.mpr rfl)⟩

theorem center_candidate_maps_to_image_center_witness :
    ∃ det, detect exampleDetector ⟨800, 600⟩ [[centerRow]] = [det] ∧
      det.box = { x := 303, y := 203, width := 192, height := 192 } ∧
      |((det.box.x : ℚ) + (det.box.width : ℚ) / 2) - 400| ≤ 1 ∧
      |((det.box.y : ℚ) + (det.box.height : ℚ) / 2) - 300| ≤ 1 :=
  center_candidate_maps_to_image_center exampleDetector centerRow rfl rfl
    (by norm_num [centerRow]) (by norm_num [centerRow]) (by norm_num [centerRow])
    (by norm_num [centerRow])
    (by rw [conf_of_one centerRow rfl rfl]; norm_num [exampleDetector])

theorem classId_within_row_scores_witness :
    0 ≤ classIdOf centerRow ∧ classIdOf centerRow < (exampleDetector.classNames.length : Int) ∧
      (classNameAt exampleDetector (classIdOf centerRow)).isSome :=
  (classId_within_row_scores exampleDetector exampleFrame [[centerRow]]).2
    (by
      intro output ho r hr
      rw [List.mem_singleton] at ho
      subst ho
      rw [List.mem_singleton] at hr
      subst hr
      decide)
    (candidateOf exampleDetector exampleFrame centerRow)
    (by rw [detect_centerRow]; exact List.mem_singleton.mpr rfl)

theorem roundF32_intCast {n : Int} (h0 : 0 ≤ n) (h : n ≤ 2 ^ 24) : roundF32 (n : ℚ) = (n : ℚ) :=
  roundF32_of_isNonnegF32 (isNonnegF32_intCast h0 h)

theorem scaleF32_cif : scaleF32 exampleDetector cifFrame = 9913809 / 8388608 := by
  have a : roundF32 ((416 : Int) : ℚ) = 416 := by
    rw [roundF32_intCast (by norm_num) (by norm_num)]; norm_num
  have b : roundF32 ((352 : Int) : ℚ) = 352 := by
    rw [roundF32_intCast (by norm_num) (by norm_num)]; norm_num
  have c : roundF32 ((288 : Int) : ℚ) = 288 := by
    rw [roundF32_intCast (by norm_num) (by norm_num)]; norm_num
  have s1 : roundF32 ((416 : ℚ) / 352) = 9913809 / 8388608 := by
    rw [roundF32_eq_of 0 9913809 (by norm_num) (by norm_num) (by norm_num [abs_lt])]
    norm_num
  have s2 : roundF32 ((416 : ℚ) / 288) = 6058439 / 4194304 := by
    rw [roundF32_eq_of 0 12116878 (by norm_num) (by norm_num) (by norm_num [abs_lt])]
    norm_num
  show min (roundF32 (roundF32 ((416 : Int) : ℚ) / roundF32 ((352 : Int) : ℚ)))
    (roundF32 (roundF32 ((416 : Int) : ℚ) / roundF32 ((288 : Int) : ℚ))) = _
  rw [a, b, c, s1, s2]
  norm_num

theorem newF32_cif : newWF32 exampleDetector cifFrame = 415 ∧ newHF32 exampleDetector cifFrame = 340 := by
  have b : roundF32 ((352 : Int) : ℚ) = 352 := by
    rw [roundF32_intCast (by norm_num) (by norm_num)]; norm_num
  have c : roundF32 ((288 : Int) : ℚ) = 288 := by
    rw [roundF32_intCast (by norm_num) (by norm_num)]; norm_num
  have p1 : roundF32 ((352 : ℚ) * (9913809 / 8388608)) = 13631487 / 32768 := by
    rw [roundF32_eq_of 8 13631487 (by norm_num) (by norm_num) (by norm_num [abs_lt])]
    norm_num
  have p2 : roundF32 ((288 : ℚ) * (9913809 / 8388608)) = 11153035 / 32768 := by
    rw [roundF32_eq_of 8 11153035 (by norm_num) (by norm_num) (by norm_num [abs_lt])]
    norm_num
  constructor
  · show toInt (roundF32 (roundF32 ((352 : Int) : ℚ) * scaleF32 exampleDetector cifFrame)) = 415
    rw [scaleF32_cif, b, p1]
    exact toInt_eq_of_mem_Ico (by norm_num) (by norm_num) (by norm_num)
  · show toInt (roundF32 (roundF32 ((288 : Int) : ℚ) * scaleF32 exampleDetector cifFrame)) = 340
    rw [scaleF32_cif, c, p2]
    exact toInt_eq_of_mem_Ico (by norm_num) (by norm_num) (by norm_num)

/-- Counterexample to C2: with the 416 x 416 network and a 352 x 288 image the binary32
computation of lines 62-65 gives newW = 415 and newH = 340, so neither side reaches
its bound. -/
theorem letterbox_cif_not_tight :
    newWF32 exampleDetector cifFrame = 415 ∧ newHF32 exampleDetector cifFrame = 340 ∧
      ¬ (newWF32 exampleDetector cifFrame = exampleDetector.inpWidth ∨
         newHF32 exampleDetector cifFrame = exampleDetector.inpHeight) := by
  obtain ⟨h1, h2⟩ := newF32_cif
  refine ⟨h1, h2, ?_⟩
  rw [h1, h2]
  decide

/-- Three roundings enlarge a value of at most `2^22` by less than one. -/
theorem three_roundings_lt_succ {n : ℚ} (h : n ≤ 4194304) :
    n * ((1 + (2 : ℚ) ^ (-24 : Int)) * (1 + (2 : ℚ) ^ (-24 : Int)) * (1 + (2 : ℚ) ^ (-24 : Int)))
      < n + 1 := by
  have e : (1 + (2 : ℚ) ^ (-24 : Int)) * (1 + (2 : ℚ) ^ (-24 : Int)) * (1 + (2 : ℚ) ^ (-24 : Int))
      = 1 + 844424980463617 / 4722366482869645213696 := by norm_num
  rw [e]
  nlinarith

/-- Three roundings shrink a value of at most `2^22` by less than one. -/
theorem pred_lt_three_roundings {n : ℚ} (h : n ≤ 4194304) :
    n - 1 < n * ((1 - (2 : ℚ) ^ (-24 : Int)) * (1 - (2 : ℚ) ^ (-24 : Int))
      * (1 - (2 : ℚ) ^ (-24 : Int))) := by
  have e : (1 - (2 : ℚ) ^ (-24 : Int)) * (1 - (2 : ℚ) ^ (-24 : Int)) * (1 - (2 : ℚ) ^ (-24 : Int))
      = 1 - 844424879800321 / 4722366482869645213696 := by norm_num
  rw [e]
  nlinarith

/-- The rounded product of line 64 (or 65) for one axis: `side` is the image side,
`net` the network side, `s` the scale. When `s` is at most the rounded quotient of the
axis the truncated product is at most `net`; when `s` is that quotient it is at least
`net - 1`. -/
theorem axis_product_bounds (side net : Int) (s : ℚ) (hside : 1 ≤ side) (hnet : 1 ≤ net)
    (hmax : net ≤ 4194304) (hs : 0 < s) :
    (s ≤ roundF32 (roundF32 (net : ℚ) / roundF32 (side : ℚ)) →
      toInt (roundF32 (roundF32 (side : ℚ) * s)) ≤ net) ∧
    (s = roundF32 (roundF32 (net : ℚ) / roundF32 (side : ℚ)) →
      net - 1 ≤ toInt (roundF32 (roundF32 (side : ℚ) * s))) := by
  have hsideq : (0 : ℚ) < (side : ℚ) := by exact_mod_cast (by omega : 0 < side)
  have hnetq : (0 : ℚ) < (net : ℚ) := by exact_mod_cast (by omega : 0 < net)
  have hnetmax : (net : ℚ) ≤ 4194304 := by exact_mod_cast hmax
  have hrS := roundF32_pos hsideq
  have hrN := roundF32_pos hnetq
  have hq : 0 < roundF32 (net : ℚ) / roundF32 (side : ℚ) := div_pos hrN hrS
  have hy : 0 < roundF32 (side : ℚ) * s := mul_pos hrS hs
  have hry := roundF32_pos hy
  obtain ⟨n1, n2⟩ := roundF32_rel hnetq
  obtain ⟨q1, q2⟩ := roundF32_rel hq
  obtain ⟨y1, y2⟩ := roundF32_rel hy
  have hcancel : roundF32 (side : ℚ) * (roundF32 (net : ℚ) / roundF32 (side : ℚ))
      = roundF32 (net : ℚ) := by field_simp
  have hup : (0 : ℚ) ≤ 1 + (2 : ℚ) ^ (-24 : Int) := by norm_num
  have hdn : (0 : ℚ) ≤ 1 - (2 : ℚ) ^ (-24 : Int) := by norm_num
  constructor
  · intro hle
    have a1 : roundF32 (side : ℚ) * s
        ≤ roundF32 (net : ℚ) * (1 + (2 : ℚ) ^ (-24 : Int)) := by
      calc roundF32 (side : ℚ) * s
          ≤ roundF32 (side : ℚ) * (roundF32 (net : ℚ) / roundF32 (side : ℚ)
              * (1 + (2 : ℚ) ^ (-24 : Int))) :=
            mul_le_mul_of_nonneg_left (hle.trans q2) hrS.le
        _ = roundF32 (net : ℚ) * (1 + (2 : ℚ) ^ (-24 : Int)) := by
            rw [← mul_assoc, hcancel]
    have a2 : roundF32 (roundF32 (side : ℚ) * s)
        ≤ (net : ℚ) * ((1 + (2 : ℚ) ^ (-24 : Int)) * (1 + (2 : ℚ) ^ (-24 : Int))
          * (1 + (2 : ℚ) ^ (-24 : Int))) := by
      calc roundF32 (roundF32 (side : ℚ) * s)
          ≤ roundF32 (side : ℚ) * s * (1 + (2 : ℚ) ^ (-24 : Int)) := y2
        _ ≤ roundF32 (net : ℚ) * (1 + (2 : ℚ) ^ (-24 : Int)) * (1 + (2 : ℚ) ^ (-24 : Int)) :=
            mul_le_mul_of_nonneg_right a1 hup
        _ ≤ (net : ℚ) * (1 + (2 : ℚ) ^ (-24 : Int)) * (1 + (2 : ℚ) ^ (-24 : Int))
              * (1 + (2 : ℚ) ^ (-24 : Int)) :=
            mul_le_mul_of_nonneg_right (mul_le_mul_of_nonneg_right n2 hup) hup
        _ = _ := by ring
    have a3 := lt_of_le_of_lt a2 (three_roundings_lt_succ hnetmax)
    rw [toInt_of_nonneg hry.le]
    have : ((⌊roundF32 (roundF32 (side : ℚ) * s)⌋ : Int) : ℚ) < ((net + 1 : Int) : ℚ) := by
      push_cast; exact lt_of_le_of_lt (Int.floor_le _) a3
    have := Int.cast_lt.mp this
    omega
  · intro heq
    have b1 : roundF32 (net : ℚ) * (1 - (2 : ℚ) ^ (-24 : Int))
        ≤ roundF32 (side : ℚ) * s := by
      calc roundF32 (net : ℚ) * (1 - (2 : ℚ) ^ (-24 : Int))
          = roundF32 (side : ℚ) * (roundF32 (net : ℚ) / roundF32 (side : ℚ)
              * (1 - (2 : ℚ) ^ (-24 : Int))) := by rw [← mul_assoc, hcancel]
        _ ≤ roundF32 (side : ℚ) * s :=
            mul_le_mul_of_nonneg_left (by rw [heq]; exact q1) hrS.le
    have b2 : (net : ℚ) * ((1 - (2 : ℚ) ^ (-24 : Int)) * (1 - (2 : ℚ) ^ (-24 : Int))
          * (1 - (2 : ℚ) ^ (-24 : Int))) ≤ roundF32 (roundF32 (side : ℚ) * s) := by
      calc (net : ℚ) * ((1 - (2 : ℚ) ^ (-24 : Int)) * (1 - (2 : ℚ) ^ (-24 : Int))
            * (1 - (2 : ℚ) ^ (-24 : Int)))
          = (net : ℚ) * (1 - (2 : ℚ) ^ (-24 : Int)) * (1 - (2 : ℚ) ^ (-24 : Int))
              * (1 - (2 : ℚ) ^ (-24 : Int)) := by ring
        _ ≤ roundF32 (net : ℚ) * (1 - (2 : ℚ) ^ (-24 : Int)) * (1 - (2 : ℚ) ^ (-24 : Int)) :=
            mul_le_mul_of_nonneg_right (mul_le_mul_of_nonneg_right n1 hdn) hdn
        _ ≤ roundF32 (side : ℚ) * s * (1 - (2 : ℚ) ^ (-24 : Int)) :=
            mul_le_mul_of_nonneg_right b1 hdn
        _ ≤ roundF32 (roundF32 (side : ℚ) * s) := y1
    have b3 := lt_of_lt_of_le (pred_lt_three_roundings hnetmax) b2
    rw [toInt_of_nonneg hry.le]
    apply Int.le_floor.mpr
    push_cast
    exact b3.le

theorem scaleF32_pos (d : YoloDetector) (f : Frame) (hW : 1 ≤ f.cols) (hH : 1 ≤ f.rows)
    (hNw : 1 ≤ d.inpWidth) (hNh : 1 ≤ d.inpHeight) : 0 < scaleF32 d f := by
  have h1 : (0 : ℚ) < (f.cols : ℚ) := by exact_mod_cast (by omega : 0 < f.cols)
  have h2 : (0 : ℚ) < (f.rows : ℚ) := by exact_mod_cast (by omega : 0 < f.rows)
  have h3 : (0 : ℚ) < (d.inpWidth : ℚ) := by exact_mod_cast (by omega : 0 < d.inpWidth)
  have h4 : (0 : ℚ) < (d.inpHeight : ℚ) := by exact_mod_cast (by omega : 0 < d.inpHeight)
  exact lt_min (roundF32_pos (div_pos (roundF32_pos h3) (roundF32_pos h1)))
    (roundF32_pos (div_pos (roundF32_pos h4) (roundF32_pos h2)))

/-- C2 (as the code has it): for an image of size W x H with W, H >= 1 and a network
size 1 <= Nw, Nh <= 2^22, the letterbox computation of lines 62-65, each operation
rounded to binary32, yields newW <= Nw and newH <= Nh, and at least one of
newW >= Nw - 1 or newH >= Nh - 1: the tighter axis is filled up to one pixel. -/
theorem letterboxF32_fits_within_one (d : YoloDetector) (f : Frame)
    (hW : 1 ≤ f.cols) (hH : 1 ≤ f.rows)
    (hNw : 1 ≤ d.inpWidth) (hNh : 1 ≤ d.inpHeight)
    (hNw' : d.inpWidth ≤ 4194304) (hNh' : d.inpHeight ≤ 4194304) :
    newWF32 d f ≤ d.inpWidth ∧ newHF32 d f ≤ d.inpHeight ∧
      (d.inpWidth - 1 ≤ newWF32 d f ∨ d.inpHeight - 1 ≤ newHF32 d f) := by
  have hs := scaleF32_pos d f hW hH hNw hNh
  have aw := axis_product_bounds f.cols d.inpWidth (scaleF32 d f) hW hNw hNw' hs
  have ah := axis_product_bounds f.rows d.inpHeight (scaleF32 d f) hH hNh hNh' hs
  refine ⟨aw.1 (min_le_left _ _), ah.1 (min_le_right _ _), ?_⟩
  rcases min_choice (roundF32 (roundF32 (d.inpWidth : ℚ) / roundF32 (f.cols : ℚ)))
    (roundF32 (roundF32 (d.inpHeight : ℚ) / roundF32 (f.rows : ℚ))) with h | h
  · exact Or.inl (aw.2 h)
  · exact Or.inr (ah.2 h)

theorem letterboxF32_fits_within_one_witness :
    newWF32 exampleDetector cifFrame ≤ 416 ∧ newHF32 exampleDetector cifFrame ≤ 416 ∧
      (416 - 1 ≤ newWF32 exampleDetector cifFrame ∨ 416 - 1 ≤ newHF32 exampleDetector cifFrame) :=
  letterboxF32_fits_within_one exampleDetector cifFrame (by decide) (by decide) (by decide)
    (by decide) (by decide) (by decide)

/-! ## Confidence filter and the score gate of the suppression call -/

theorem NMSBoxes_above (boxes : List Rect) (scores : List ℚ) (s t : ℚ) :
    ∀ i ∈ NMSBoxes boxes scores s t, s < scores.getD i 0 := by
  intro i hi
  unfold NMSBoxes at hi
  rcases foldl_nmsStep_mem boxes t _ [] i hi with h | h
  · simp at h
  · have := (List.perm_insertionSort _ _).mem_iff.mp h
    exact of_decide_eq_true (List.mem_filter.mp this).2

theorem mem_detect_above {d : YoloDetector} {f : Frame} {outputs : List (List Row)}
    {c : Detection} (hc : c ∈ detect d f outputs) : d.confThresh < c.confidence := by
  unfold detect at hc
  simp only [List.mem_map] at hc
  obtain ⟨idx, hidx, rfl⟩ := hc
  exact NMSBoxes_above _ _ _ _ idx hidx

theorem conf_of_halves (r : Row) (h1 : r.objConf = 1 / 2) (h2 : maxClassScore r = 1 / 2) :
    conf r = 1 / 4 := by
  rw [conf, h1, h2]
  rw [roundF32_eq_of (-2) 8388608 (by norm_num) (by norm_num) (by norm_num [abs_lt])]
  norm_num

/-- Counterexample to C5: the lone row with objectness 0.5 and class score 0.5 has
confidence 0.25; with confThresh = 0.25 it passes the filter of line 105 and is in the
candidate list, but `detect` returns nothing, the suppression call of line 139 keeping
only the scores above confThresh. -/
theorem boundary_candidate_not_returned :
    conf boundaryRow = 1 / 4 ∧ exampleDetector.confThresh = 1 / 4 ∧
      candidateOf exampleDetector exampleFrame boundaryRow
        ∈ candidates exampleDetector exampleFrame [[boundaryRow]] ∧
      detect exampleDetector exampleFrame [[boundaryRow]] = [] := by
  have hc : conf boundaryRow = 1 / 4 := conf_of_halves boundaryRow rfl rfl
  have hle : exampleDetector.confThresh ≤ conf boundaryRow := by
    rw [hc]; exact le_of_eq rfl
  refine ⟨hc, rfl, ?_, ?_⟩
  · rw [candidates_single_keep hle]; exact List.mem_singleton.mpr rfl
  · exact detect_single_not_above (by rw [hc]; exact le_of_eq rfl)

/-- The two uses of confThresh in `detect`: the filter of line 105 keeps a row when
confidence >= confThresh, and the suppression call of line 139, given confThresh as its
score threshold, returns only detections with confidence > confThresh. -/
theorem confidence_filter_and_score_gate (d : YoloDetector) (f : Frame)
    (outputs : List (List Row)) :
    (∀ c ∈ candidates d f outputs, d.confThresh ≤ c.confidence) ∧
    (∀ c ∈ detect d f outputs, d.confThresh < c.confidence) := by
  refine ⟨?_, fun c hc => mem_detect_above hc⟩
  intro c hc
  obtain ⟨_, _, r, _, hr, rfl⟩ := mem_candidates.mp hc
  exact not_lt.mp hr

/-- C5 (as the code has it): for a non-empty frame whose resized image is not empty, a row
of an output matrix has its candidate (confidence = the binary32 product
objectness * max class score) in the candidate list exactly when confidence >= confThresh;
a lone row is returned by `detect`, with its class id and confidence, when its
confidence > confThresh, and is not returned when its confidence < confThresh. The lone
row with objectness 0.5 and max class score 0.5 has confidence 0.25: it is in the
candidate list when confThresh = 0.25 and is not returned when confThresh > 0.25, as for
0.26. -/
theorem confidence_filter_around_threshold (d : YoloDetector) (f : Frame)
    (_hW : 1 ≤ f.cols) (_hH : 1 ≤ f.rows) (_hw : 1 ≤ newWF32 d f) (_hh : 1 ≤ newHF32 d f) :
    (∀ outputs : List (List Row), ∀ output ∈ outputs, ∀ r ∈ output,
      (candidateOf d f r ∈ candidates d f outputs ↔ d.confThresh ≤ conf r)) ∧
    (∀ r : Row, d.confThresh < conf r →
      (detect d f [[r]]).map (fun c => (c.classId, c.confidence)) = [(classIdOf r, conf r)]) ∧
    (∀ r : Row, conf r < d.confThresh → detect d f [[r]] = []) ∧
    (∀ r : Row, r.objConf = 1 / 2 → maxClassScore r = 1 / 2 →
      conf r = 1 / 4 ∧
      (d.confThresh = 1 / 4 → candidateOf d f r ∈ candidates d f [[r]]) ∧
      (1 / 4 < d.confThresh → detect d f [[r]] = [])) := by
  refine ⟨?_, ?_, ?_, ?_⟩
  · intro outputs output ho r hr
    constructor
    · intro h
      obtain ⟨_, _, r', _, hr', heq⟩ := mem_candidates.mp h
      have : conf r = conf r' := congrArg Detection.confidence heq
      rw [this]; exact not_lt.mp hr'
    · intro h
      exact mem_candidates.mpr ⟨output, ho, r, hr, not_lt.mpr h, rfl⟩
  · intro r h
    rw [detect_single_above h]
    rfl
  · intro r h
    exact detect_single_not_above h.le
  · intro r ho hm
    have hc := conf_of_halves r ho hm
    refine ⟨hc, ?_, ?_⟩
    · intro ht
      rw [candidates_single_keep (by rw [ht, hc])]
      exact List.mem_singleton.mpr rfl
    · intro ht
      exact detect_single_not_above (by rw [hc]; exact ht.le)

theorem confidence_filter_around_threshold_witness :
    (detect exampleDetector cifFrame [[centerRow]]).map (fun c => (c.classId, c.confidence))
        = [(classIdOf centerRow, conf centerRow)] ∧
      candidateOf exampleDetector cifFrame boundaryRow
        ∈ candidates exampleDetector cifFrame [[boundaryRow]] ∧
      detect strictDetector cifFrame [[boundaryRow]] = [] :=
  have hs : newWF32 strictDetector cifFrame = newWF32 exampleDetector cifFrame ∧
      newHF32 strictDetector cifFrame = newHF32 exampleDetector cifFrame := ⟨rfl, rfl⟩
  have h1 := confidence_filter_around_threshold exampleDetector cifFrame (by decide)
    (by decide) (by rw [newF32_cif.1]; decide) (by rw [newF32_cif.2]; decide)
  have h2 := confidence_filter_around_threshold strictDetector cifFrame (by decide)
    (by decide) (by rw [hs.1, newF32_cif.1]; decide) (by rw [hs.2, newF32_cif.2]; decide)
  ⟨h1.2.1 centerRow (by rw [conf_of_one centerRow rfl rfl]; norm_num [exampleDetector]),
    (h1.2.2.2 boundaryRow rfl rfl).2.1 rfl,
    (h2.2.2.2 boundaryRow rfl rfl).2.2 (by norm_num [strictDetector])⟩

/-! ## The integer box in binary32 -/

theorem rowBoxF32_eq (d : YoloDetector) (f : Frame) (r : Row) :
    rowBoxF32 d f r =
      { x := toInt (x0F32 d f r), y := toInt (y0F32 d f r),
        width := toInt (roundF32 (x1F32 d f r - x0F32 d f r)),
        height := toInt (roundF32 (y1F32 d f r - y0F32 d f r)) } := rfl

theorem clampF32_nonneg (v : ℚ) (hi : Int) : 0 ≤ clampF32 v hi := le_max_left _ _

theorem clampF32_mono {u v : ℚ} (hi : Int) (huv : u ≤ v) : clampF32 u hi ≤ clampF32 v hi :=
  max_le_max le_rfl (min_le_min huv le_rfl)

theorem clampF32_le {v : ℚ} {hi : Int} (h0 : 0 ≤ hi) (h : hi ≤ 2 ^ 24) :
    clampF32 v hi ≤ (hi : ℚ) := by
  unfold clampF32
  rw [roundF32_intCast h0 h]
  exact max_le (by exact_mod_cast h0) (min_le_right _ _)

theorem clampF32_of_neg {v : ℚ} (hi : Int) (hv : v < 0) : clampF32 v hi = 0 :=
  max_eq_left ((min_le_left _ _).trans hv.le)

/-- A clamped `float` is a binary32 value. -/
theorem isNonnegF32_clampF32 (x : ℚ) {hi : Int} (h0 : 0 ≤ hi) (h : hi ≤ 2 ^ 24) :
    IsNonnegF32 (clampF32 (roundF32 x) hi) := by
  unfold clampF32
  rw [roundF32_intCast h0 h]
  rcases le_total 0 (min (roundF32 x) (hi : ℚ)) with hpos | hneg
  · rw [max_eq_right hpos]
    rcases min_choice (roundF32 x) (hi : ℚ) with e | e
    · rw [e]; rw [e] at hpos; exact isNonnegF32_roundF32 hpos
    · rw [e]; exact isNonnegF32_intCast h0 h
  · rw [max_eq_left hneg]; exact isNonnegF32_zero

/-- The cast of the rounded difference of two ordered non-negative `float`s below `2^24`
is the difference of their floors or one less. -/
theorem trunc_sub_bounds_F32 {a b : ℚ} (ha : 0 ≤ a) (hab : a ≤ b) (hb : IsNonnegF32 b)
    (hlt : b < (2 : ℚ) ^ (24 : Int)) :
    toInt (roundF32 (b - a)) = ⌊roundF32 (b - a)⌋ ∧
      ⌊b⌋ - ⌊a⌋ - 1 ≤ toInt (roundF32 (b - a)) ∧ toInt (roundF32 (b - a)) ≤ ⌊b⌋ - ⌊a⌋ := by
  have hd0 : 0 ≤ b - a := sub_nonneg.mpr hab
  have hr0 : 0 ≤ roundF32 (b - a) := roundF32_nonneg hd0
  have e := toInt_of_nonneg hr0
  have fa := Int.floor_le a
  have fa' := Int.lt_floor_add_one a
  have fb := Int.floor_le b
  have fb' := Int.lt_floor_add_one b
  have hfa0 : 0 ≤ ⌊a⌋ := Int.floor_nonneg.mpr ha
  refine ⟨e, ?_, ?_⟩
  · rw [e]
    rcases le_or_lt (⌊b⌋ - ⌊a⌋ - 1) 0 with hm | hm
    · exact hm.trans (Int.floor_nonneg.mpr hr0)
    · have hb24 : ((⌊b⌋ : Int) : ℚ) < ((2 ^ 24 : Int) : ℚ) := by
        push_cast; exact lt_of_le_of_lt fb (by exact_mod_cast hlt)
      have hb24' := Int.cast_lt.mp hb24
      have hm' : IsNonnegF32 ((⌊b⌋ - ⌊a⌋ - 1 : Int) : ℚ) :=
        isNonnegF32_intCast hm.le (by omega)
      apply Int.le_floor.mpr
      apply le_roundF32_of_le hm'
      push_cast
      linarith
  · rw [e]
    have hc : IsNonnegF32 (b - ((⌊a⌋ : Int) : ℚ)) :=
      isNonnegF32_sub_int hb hlt hfa0 (fa.trans hab)
    have h1 : roundF32 (b - a) ≤ b - ((⌊a⌋ : Int) : ℚ) :=
      roundF32_le_of_le hc hd0 (by linarith)
    have h2 : ((⌊roundF32 (b - a)⌋ : Int) : ℚ) < ((⌊b⌋ - ⌊a⌋ + 1 : Int) : ℚ) := by
      push_cast
      have := Int.floor_le (roundF32 (b - a))
      linarith
    have := Int.cast_lt.mp h2
    omega

/-- For a non-negative extent and a positive scale the clamped corners are ordered. -/
theorem clamped_corners_ordered (s : ℚ) (pad hi : Int) (c e : ℚ) (hs : 0 < s) (he : 0 ≤ e) :
    clampF32 (lowCornerF32 s pad c e) hi ≤ clampF32 (highCornerF32 s pad c e) hi := by
  rcases lt_or_le (lowCornerF32 s pad c e) 0 with hneg | hpos
  · rw [clampF32_of_neg hi hneg]; exact clampF32_nonneg _ _
  · apply clampF32_mono
    have hq : 0 ≤ roundF32 (e / s) := roundF32_nonneg (div_nonneg he hs.le)
    have hrep : IsNonnegF32 (lowCornerF32 s pad c e) := by
      unfold lowCornerF32 at hpos ⊢
      exact isNonnegF32_roundF32 hpos
    unfold highCornerF32
    exact le_roundF32_of_le hrep (by linarith)

theorem netCoordF32_nonneg {v : ℚ} {n : Int} (hv : 0 ≤ v) (hn : 1 ≤ n) :
    0 ≤ netCoordF32 v n := by
  have : (0 : ℚ) < (n : ℚ) := by exact_mod_cast (by omega : 0 < n)
  exact roundF32_nonneg (mul_nonneg hv (roundF32_pos this).le)

/-- C6 (as the code has it): for a row with w, h >= 0, an image with sides between 1 and
2^24 and a network with sides >= 1, let x0, y0, x1, y1 be the clamped corners as lines
113-121 compute them in binary32 (x1 = x0 + w/scale and y1 = y0 + h/scale before the
clamp). The box is left = floor(x0), top = floor(y0), width = floor of the rounded
difference x1 - x0, height = floor of the rounded difference y1 - y0; the width is
floor(x1) - floor(x0) or one less, and likewise the height. -/
theorem rowBoxF32_floor_of_corners (d : YoloDetector) (f : Frame) (r : Row)
    (hW : 1 ≤ f.cols) (hH : 1 ≤ f.rows) (hW' : f.cols ≤ 16777216) (hH' : f.rows ≤ 16777216)
    (hNw : 1 ≤ d.inpWidth) (hNh : 1 ≤ d.inpHeight) (hw : 0 ≤ r.w) (hh : 0 ≤ r.h) :
    (rowBoxF32 d f r).x = ⌊x0F32 d f r⌋ ∧ (rowBoxF32 d f r).y = ⌊y0F32 d f r⌋ ∧
    (rowBoxF32 d f r).width = ⌊roundF32 (x1F32 d f r - x0F32 d f r)⌋ ∧
    (rowBoxF32 d f r).height = ⌊roundF32 (y1F32 d f r - y0F32 d f r)⌋ ∧
    (⌊x1F32 d f r⌋ - ⌊x0F32 d f r⌋ - 1 ≤ (rowBoxF32 d f r).width ∧
      (rowBoxF32 d f r).width ≤ ⌊x1F32 d f r⌋ - ⌊x0F32 d f r⌋) ∧
    (⌊y1F32 d f r⌋ - ⌊y0F32 d f r⌋ - 1 ≤ (rowBoxF32 d f r).height ∧
      (rowBoxF32 d f r).height ≤ ⌊y1F32 d f r⌋ - ⌊y0F32 d f r⌋) := by
  have hs := scaleF32_pos d f hW hH hNw hNh
  have hx : x0F32 d f r ≤ x1F32 d f r :=
    clamped_corners_ordered _ _ _ _ _ hs (netCoordF32_nonneg hw hNw)
  have hy : y0F32 d f r ≤ y1F32 d f r :=
    clamped_corners_ordered _ _ _ _ _ hs (netCoordF32_nonneg hh hNh)
  have hx1 : IsNonnegF32 (x1F32 d f r) := by
    unfold x1F32 highCornerF32
    exact isNonnegF32_clampF32 _ (by omega) (by omega)
  have hy1 : IsNonnegF32 (y1F32 d f r) := by
    unfold y1F32 highCornerF32
    exact isNonnegF32_clampF32 _ (by omega) (by omega)
  have hx1lt : x1F32 d f r < (2 : ℚ) ^ (24 : Int) := by
    have h1 : x1F32 d f r ≤ ((f.cols - 1 : Int) : ℚ) := clampF32_le (by omega) (by omega)
    have h2 : ((f.cols - 1 : Int) : ℚ) < ((16777216 : Int) : ℚ) :=
      Int.cast_lt.mpr (by omega)
    have h3 : ((16777216 : Int) : ℚ) = (2 : ℚ) ^ (24 : Int) := by norm_num
    rw [← h3]; exact lt_of_le_of_lt h1 h2
  have hy1lt : y1F32 d f r < (2 : ℚ) ^ (24 : Int) := by
    have h1 : y1F32 d f r ≤ ((f.rows - 1 : Int) : ℚ) := clampF32_le (by omega) (by omega)
    have h2 : ((f.rows - 1 : Int) : ℚ) < ((16777216 : Int) : ℚ) :=
      Int.cast_lt.mpr (by omega)
    have h3 : ((16777216 : Int) : ℚ) = (2 : ℚ) ^ (24 : Int) := by norm_num
    rw [← h3]; exact lt_of_le_of_lt h1 h2
  have hx0 : 0 ≤ x0F32 d f r := clampF32_nonneg _ _
  have hy0 : 0 ≤ y0F32 d f r := clampF32_nonneg _ _
  obtain ⟨wx, wx1, wx2⟩ := trunc_sub_bounds_F32 hx0 hx hx1 hx1lt
  obtain ⟨wy, wy1, wy2⟩ := trunc_sub_bounds_F32 hy0 hy hy1 hy1lt
  rw [rowBoxF32_eq]
  exact ⟨toInt_of_nonneg hx0, toInt_of_nonneg hy0, wx, wy, ⟨wx1, wx2⟩, ⟨wy1, wy2⟩⟩

theorem rowBoxF32_floor_of_corners_witness :
    (rowBoxF32 exampleDetector squareFrame quarterRow).x
        = ⌊x0F32 exampleDetector squareFrame quarterRow⌋ ∧
      (rowBoxF32 exampleDetector squareFrame quarterRow).width
        ≤ ⌊x1F32 exampleDetector squareFrame quarterRow⌋
            - ⌊x0F32 exampleDetector squareFrame quarterRow⌋ :=
  have h := rowBoxF32_floor_of_corners exampleDetector squareFrame quarterRow (by decide)
    (by decide) (by decide) (by decide) (by decide) (by decide)
    (by norm_num [quarterRow]) (by norm_num [quarterRow])
  ⟨h.1, h.2.2.2.2.1.2⟩

/-! ## A row whose width loses a unit to the rounding -/

theorem roundHalfEven_of_tie {t : ℚ} (m : Int) (h : t = (m : ℚ) + 1 / 2) :
    roundHalfEven t = if m % 2 = 0 then m else m + 1 := by
  have hf : ⌊t⌋ = m := Int.floor_eq_iff.mpr ⟨by rw [h]; linarith, by rw [h]; linarith⟩
  have hfr : t - ((m : Int) : ℚ) = 1 / 2 := by rw [h]; ring
  unfold roundHalfEven
  rw [hf, hfr]
  simp

/-- Evaluation of the rounding at a tie. -/
theorem roundF32_eq_of_tie {x : ℚ} (e m : Int) (h1 : (2 : ℚ) ^ e ≤ x)
    (h2 : x < (2 : ℚ) ^ (e + 1)) (h3 : x / (2 : ℚ) ^ (e - 23) = (m : ℚ) + 1 / 2) :
    roundF32 x = ((if m % 2 = 0 then m else m + 1 : Int) : ℚ) * (2 : ℚ) ^ (e - 23) := by
  have hx : 0 < x := lt_of_lt_of_le (zpow_pos (by norm_num) _) h1
  rw [roundF32_of_nonneg hx.le]
  exact roundPosF32_eq_of h1 h2 (roundHalfEven_of_tie m h3)

theorem scaleF32_square : scaleF32 exampleDetector squareFrame = 1090519 / 262144 := by
  have a : roundF32 ((416 : Int) : ℚ) = 416 := by
    rw [roundF32_intCast (by norm_num) (by norm_num)]; norm_num
  have b : roundF32 ((100 : Int) : ℚ) = 100 := by
    rw [roundF32_intCast (by norm_num) (by norm_num)]; norm_num
  have s1 : roundF32 ((416 : ℚ) / 100) = 1090519 / 262144 := by
    rw [roundF32_eq_of 2 8724152 (by norm_num) (by norm_num) (by norm_num [abs_lt])]
    norm_num
  show min (roundF32 (roundF32 ((416 : Int) : ℚ) / roundF32 ((100 : Int) : ℚ)))
    (roundF32 (roundF32 ((416 : Int) : ℚ) / roundF32 ((100 : Int) : ℚ))) = _
  rw [a, b, s1, min_self]

theorem padF32_square :
    padXF32 exampleDetector squareFrame = 0 ∧ padYF32 exampleDetector squareFrame = 0 := by
  have b : roundF32 ((100 : Int) : ℚ) = 100 := by
    rw [roundF32_intCast (by norm_num) (by norm_num)]; norm_num
  have p : roundF32 ((100 : ℚ) * (1090519 / 262144)) = 416 := by
    rw [roundF32_eq_of_tie 8 13631487 (by norm_num) (by norm_num) (by norm_num)]
    norm_num
  have hw : newWF32 exampleDetector squareFrame = 416 := by
    show toInt (roundF32 (roundF32 ((100 : Int) : ℚ) * scaleF32 exampleDetector squareFrame)) = 416
    rw [scaleF32_square, b, p]
    exact toInt_eq_of_mem_Ico (by norm_num) (by norm_num) (by norm_num)
  have hh : newHF32 exampleDetector squareFrame = 416 := by
    show toInt (roundF32 (roundF32 ((100 : Int) : ℚ) * scaleF32 exampleDetector squareFrame)) = 416
    rw [scaleF32_square, b, p]
    exact toInt_eq_of_mem_Ico (by norm_num) (by norm_num) (by norm_num)
  rw [padXF32, padYF32, hw, hh]
  exact ⟨by decide, by decide⟩

theorem corners_quarterRow :
    lowCornerF32 (1090519 / 262144) 0 (netCoordF32 (13 / 32) 416) (netCoordF32 (1 / 4) 416)
        = 14745601 / 524288 ∧
      highCornerF32 (1090519 / 262144) 0 (netCoordF32 (13 / 32) 416) (netCoordF32 (1 / 4) 416)
        = 425 / 8 := by
  have a : roundF32 ((416 : Int) : ℚ) = 416 := by
    rw [roundF32_intCast (by norm_num) (by norm_num)]; norm_num
  have z : roundF32 ((0 : Int) : ℚ) = 0 := by
    rw [roundF32_intCast (by norm_num) (by norm_num)]; norm_num
  have c : netCoordF32 (13 / 32) 416 = 169 := by
    rw [netCoordF32, a]
    rw [roundF32_eq_of 7 11075584 (by norm_num) (by norm_num) (by norm_num [abs_lt])]
    norm_num
  have w : netCoordF32 (1 / 4) 416 = 104 := by
    rw [netCoordF32, a]
    rw [roundF32_eq_of 6 13631488 (by norm_num) (by norm_num) (by norm_num [abs_lt])]
    norm_num
  have hhalf : roundF32 ((104 : ℚ) / 2) = 52 := by
    rw [roundF32_eq_of 5 13631488 (by norm_num) (by norm_num) (by norm_num [abs_lt])]
    norm_num
  have hsub : roundF32 ((169 : ℚ) - 52) = 117 := by
    rw [roundF32_eq_of 6 15335424 (by norm_num) (by norm_num) (by norm_num [abs_lt])]
    norm_num
  have hsub0 : roundF32 ((117 : ℚ) - 0) = 117 := by
    rw [roundF32_eq_of 6 15335424 (by norm_num) (by norm_num) (by norm_num [abs_lt])]
    norm_num
  have hdiv : roundF32 ((117 : ℚ) / (1090519 / 262144)) = 14745601 / 524288 := by
    rw [roundF32_eq_of 4 14745601 (by norm_num) (by norm_num) (by norm_num [abs_lt])]
    norm_num
  have hq : roundF32 ((104 : ℚ) / (1090519 / 262144)) = 25 := by
    rw [roundF32_eq_of 4 13107200 (by norm_num) (by norm_num) (by norm_num [abs_lt])]
    norm_num
  have hadd : roundF32 ((14745601 : ℚ) / 524288 + 25) = 425 / 8 := by
    rw [roundF32_eq_of_tie 5 13926400 (by norm_num) (by norm_num) (by norm_num)]
    norm_num
  have low : lowCornerF32 (1090519 / 262144) 0 (netCoordF32 (13 / 32) 416)
      (netCoordF32 (1 / 4) 416) = 14745601 / 524288 := by
    rw [lowCornerF32, c, w, hhalf, hsub, z, hsub0, hdiv]
  refine ⟨low, ?_⟩
  rw [highCornerF32, low, w, hq, hadd]

/-- With the 416 x 416 network and a 100 x 100 image, the row (13/32, 13/32, 1/4, 1/4)
has x0 = 28.125002 and x1 = 53.125 in binary32: the rounded difference is below 25 and
the box is 24 wide, where exact arithmetic gives x1 - x0 = 25. -/
theorem rowBoxF32_quarterRow :
    rowBoxF32 exampleDetector squareFrame quarterRow
      = { x := 28, y := 28, width := 24, height := 24 } := by
  obtain ⟨lo, hi⟩ := corners_quarterRow
  have m : roundF32 ((99 : Int) : ℚ) = 99 := by
    rw [roundF32_intCast (by norm_num) (by norm_num)]; norm_num
  have c0 : clampF32 (14745601 / 524288) 99 = 14745601 / 524288 := by
    rw [clampF32, m]; norm_num
  have c1 : clampF32 (425 / 8) 99 = 425 / 8 := by
    rw [clampF32, m]; norm_num
  have hd : roundF32 ((425 : ℚ) / 8 - 14745601 / 524288) = 13107199 / 524288 := by
    rw [roundF32_eq_of 4 13107199 (by norm_num) (by norm_num) (by norm_num [abs_lt])]
    norm_num
  have t0 : toInt ((14745601 : ℚ) / 524288) = 28 :=
    toInt_eq_of_mem_Ico (by norm_num) (by norm_num) (by norm_num)
  have t1 : toInt ((13107199 : ℚ) / 524288) = 24 :=
    toInt_eq_of_mem_Ico (by norm_num) (by norm_num) (by norm_num)
  rw [rowBoxF32, scaleF32_square, padF32_square.1, padF32_square.2]
  show remapF32 (1090519 / 262144) 0 0 100 100 (netCoordF32 (13 / 32) 416)
    (netCoordF32 (13 / 32) 416) (netCoordF32 (1 / 4) 416) (netCoordF32 (1 / 4) 416) = _
  simp only [remapF32, lo, hi]
  show ({ x := toInt (clampF32 (14745601 / 524288) 99),
          y := toInt (clampF32 (14745601 / 524288) 99),
          width := toInt (roundF32 (clampF32 (425 / 8) 99 - clampF32 (14745601 / 524288) 99)),
          height := toInt (roundF32 (clampF32 (425 / 8) 99 - clampF32 (14745601 / 524288) 99)) }
        : Rect) = _
  rw [c0, c1, hd, t0, t1]

end Yolo
